import Mathlib

/-!
Verification development for the evo-nn graph/agent core.

The Rust sources are shallowly embedded:
* `NeuronOrder` and its operations follow `src/agent/index.rs`
  (`NeuronID` raw values are modelled as `Nat` bounded by `NeuronID.MAX`;
  the `rustc` niche tricks only restrict the value range).
* `Neuron`, `Connection`, `BrainData` and `dropAccess` follow
  `src/agent/brain.rs` (`RawBrainAccess::drop`); the breadth-first search
  is written with an explicit fuel parameter whose chosen value is proved
  sufficient under the order-consistency invariant, and the iteration
  order of the Rust `HashMap` in `NeuronOrder::rebuild` is exposed as an
  explicit `keys` parameter.
* the execution engine (`State::step`, `src/agent/state.rs`) is embedded
  generically over the Activator/Propagator/Collector capability records,
  and instantiated with the test semantics of `state.rs::test` for the
  XOR scenario (all arithmetic there is on small integers, where `f64`
  computation is exact, so `Int` is a faithful carrier).
* the bump arena (`src/arena.rs`) is embedded at byte granularity, with
  the element size, alignment and the allocation base address as explicit
  parameters of the operations.
* the `World` bookkeeping (`src/world/mod.rs`) is embedded with abstract
  agent/state payloads and the controller decisions abstracted as
  functions, which only preserves what the claims are about: the vector
  bookkeeping itself.
-/

namespace EvoNN

/-- Upper bound of raw `NeuronID` values (`NeuronID::MAX` in `index.rs`). -/
def NeuronID.MAX : Nat := 0xFFFFFF00

/-- `NeuronID::try_from`: valid only for raw values not above `MAX`. -/
def NeuronID.tryFrom (id : Nat) : Option Nat :=
  if id ≤ NeuronID.MAX then some id else none

/-- Index of the last occurrence of `id` in `l` (the value a Rust
`HashMap` collected from `enumerate` pairs stores, since later inserts
overwrite earlier ones). -/
def lastIndexOf (l : List Nat) (id : Nat) : Option Nat :=
  match l with
  | [] => none
  | x :: xs =>
    match lastIndexOf xs id with
    | some j => some (j + 1)
    | none => if x = id then some 0 else none

/-- Stable sort by a `Nat` key (models `sort_by_key`; also models
`sort_unstable_by_key` at call sites where the keys are distinct). -/
def sortByKey (key : α → Nat) (l : List α) : List α :=
  List.insertionSort (fun a b => key a ≤ key b) l

/-- `List.mapM` specialised to `Except` with the evaluation order made
explicit: the first failing element aborts the whole traversal (this is
how `?`/`expect` behave inside the Rust loops). -/
def mapME (f : α → Except ε β) : List α → Except ε (List β)
  | [] => Except.ok []
  | a :: l => do
    let b ← f a
    let r ← mapME f l
    Except.ok (b :: r)

/-- The `iter().enumerate().find(|(_, index)| index.is_none())` scan of
`NeuronOrder::find_free`, with the running position made explicit. -/
def findFirstFree : List (Option Nat) → Nat → Option Nat
  | [], _ => none
  | e :: rest, i => if e.isNone then some i else findFirstFree rest (i + 1)

/-- The position table of `index.rs::NeuronOrder`: a sparse array from
raw handle value to optional dense slot, plus the cached entry count and
largest used handle. -/
structure NeuronOrder where
  index : List (Option Nat)
  count : Nat
  largest_used : Option Nat
deriving DecidableEq, Repr

namespace NeuronOrder

/-- `NeuronOrder::new`. -/
def new : NeuronOrder := ⟨[], 0, none⟩

/-- `NeuronOrder::index`: `self.index.get(neuron).copied().flatten()`. -/
def indexOf (o : NeuronOrder) (neuron : Nat) : Option Nat :=
  o.index.getD neuron none

/-- `NeuronOrder::set_unchecked`. -/
def set_unchecked (o : NeuronOrder) (neuron : Nat) (idx : Option Nat) : NeuronOrder :=
  match idx with
  | some i =>
    if o.index.length ≤ neuron then
      -- resize(neuron + 1, None), count += 1, then write the slot
      let padded := o.index ++ List.replicate (neuron + 1 - o.index.length) none
      ⟨padded.set neuron (NeuronID.tryFrom i), o.count + 1, o.largest_used⟩
    else if (o.index.getD neuron none).isNone then
      ⟨o.index.set neuron (NeuronID.tryFrom i), o.count + 1, o.largest_used⟩
    else
      ⟨o.index.set neuron (NeuronID.tryFrom i), o.count, o.largest_used⟩
  | none =>
    if neuron < o.index.length ∧ (o.index.getD neuron none).isSome then
      ⟨o.index.set neuron none,
       o.count - 1,
       if o.largest_used = some neuron then none else o.largest_used⟩
    else o

/-- `NeuronOrder::swap`; `Vec::swap` panics when an index is out of
bounds, modelled as `none`. -/
def swap (o : NeuronOrder) (a b : Nat) : Option NeuronOrder :=
  if a < o.index.length ∧ b < o.index.length then
    some ⟨(o.index.set a (o.index.getD b none)).set b (o.index.getD a none),
          o.count, o.largest_used⟩
  else none

/-- `NeuronOrder::truncate`. -/
def truncate (o : NeuronOrder) : NeuronOrder :=
  match o.largest_used with
  | some m => ⟨o.index.take (m + 1), o.count, o.largest_used⟩
  | none =>
    if o.count = 0 then ⟨[], o.count, o.largest_used⟩
    else
      let cutoff := (o.index.reverse.takeWhile Option.isNone).length
      let len := o.index.length - cutoff
      -- `NeuronID::try_from(len as u32 - 1)`; `len = 0` wraps around and
      -- the conversion then fails, leaving `largest_used` unset
      ⟨o.index.take len, o.count, if len = 0 then none else NeuronID.tryFrom (len - 1)⟩

/-- `NeuronOrder::is_packed`. -/
def is_packed (o : NeuronOrder) : Bool :=
  o.count = 0 ||
    (match o.largest_used with
     | some id => id + 1 = o.count
     | none => false)

/-- `NeuronOrder::find_free`. -/
def find_free (o : NeuronOrder) : Option Nat :=
  if o.is_packed then
    match o.largest_used with
    | none => some 0
    | some id => if id < NeuronID.MAX then some (id + 1) else none
  else
    match findFirstFree o.index 0 with
    | some id => match NeuronID.tryFrom id with
      | some v => some v
      | none => NeuronID.tryFrom o.index.length
    | none => NeuronID.tryFrom o.index.length

/-- `NeuronOrder::rebuild`.  The returned map is the content of the
collected `HashMap` (id ↦ last position in `order`); `keys` is the
iteration order of that map's keys, which Rust does not determine — it
must list each distinct element of `order` exactly once.  The `expect`
on `NeuronID::try_from` fails when a position exceeds `MAX`. -/
def rebuild (_o : NeuronOrder) (order : List Nat) (keys : List Nat) :
    Except String (NeuronOrder × (Nat → Option Nat)) :=
  if NeuronID.MAX + 1 < order.length then
    Except.error "length of order cannot exceed NeuronID MAX"
  else
    Except.ok
      (⟨keys.map some, keys.length, keys.getLast?⟩, lastIndexOf order)

end NeuronOrder

example : (NeuronOrder.new.set_unchecked 0 (some 0)).indexOf 0 = some 0 := by decide
example : (NeuronOrder.new.set_unchecked 2 (some 7)).index = [none, none, some 7] := by decide
example : NeuronOrder.new.find_free = some 0 := by decide

/-- The internal invariant `NeuronOrder` is designed around: when
`largest_used` is set it names the position of the last assigned entry
of the sparse table. -/
def largestOk (idx : List (Option Nat)) : Option Nat → Prop
  | none => True
  | some k =>
    k < idx.length ∧ (idx.getD k none).isSome = true ∧
      ∀ j, j < idx.length → k < j → idx.getD j none = none

instance (idx : List (Option Nat)) : (u : Option Nat) → Decidable (largestOk idx u)
  | none => isTrue trivial
  | some _ => by unfold largestOk; infer_instance

/-- Metadata consistency of a `NeuronOrder`: the cached `count` equals
the number of assigned entries, and `largest_used`, when set, marks the
last assigned entry. -/
def metaConsistent (o : NeuronOrder) : Prop :=
  o.count = (o.index.filter Option.isSome).length ∧ largestOk o.index o.largest_used

instance (o : NeuronOrder) : Decidable (metaConsistent o) := by
  unfold metaConsistent; infer_instance

lemma all_some_of_filter_len {l : List (Option Nat)}
    (h : (l.filter Option.isSome).length = l.length) :
    ∀ j, j < l.length → (l.getD j none).isSome = true := by
  induction l with
  | nil => intro j hj; simp at hj
  | cons a t ih =>
    by_cases ha : a.isSome = true
    · intro j hj
      cases j with
      | zero => simpa using ha
      | succ m =>
        have ht : (t.filter Option.isSome).length = t.length := by
          rw [List.filter_cons, if_pos ha] at h
          simp only [List.length_cons] at h
          omega
        simpa using ih ht m (by simpa using hj)
    · exfalso
      have h1 : (List.filter Option.isSome t).length ≤ t.length :=
        List.length_filter_le _ _
      rw [List.filter_cons, if_neg ha] at h
      simp at h
      omega

lemma filter_drop_none {l : List (Option Nat)} {m : Nat}
    (h : ∀ j, m ≤ j → j < l.length → l.getD j none = none) :
    ((l.drop m).filter Option.isSome).length = 0 := by
  rw [List.length_eq_zero, List.filter_eq_nil_iff]
  intro x hx
  obtain ⟨i, hi, hget⟩ := List.getElem_of_mem hx
  have hlt : m + i < l.length := by
    rw [List.length_drop] at hi
    omega
  have hx2 : l.getD (m + i) none = x := by
    rw [List.getD_eq_getElem _ _ hlt, List.getElem_drop' l]
    exact hget
  have hz := h (m + i) (by omega) hlt
  rw [hx2] at hz
  rw [hz]
  simp

lemma getD_take_eq {l : List (Option Nat)} {m j : Nat} (hj : j < m) (hl : j < l.length) :
    (l.take m).getD j none = l.getD j none := by
  have h1 : j < (l.take m).length := by rw [List.length_take]; omega
  rw [List.getD_eq_getElem _ _ h1, List.getD_eq_getElem _ _ hl]
  exact List.getElem_take _

lemma findFirstFree_some {l : List (Option Nat)} {s i : Nat}
    (h : findFirstFree l s = some i) :
    s ≤ i ∧ i - s < l.length ∧ l.getD (i - s) none = none ∧
      ∀ m, m < i - s → (l.getD m none).isSome = true := by
  induction l generalizing s i with
  | nil => simp [findFirstFree] at h
  | cons a t ih =>
    by_cases ha : a.isNone = true
    · rw [findFirstFree, if_pos ha] at h
      cases h
      refine ⟨le_refl _, by simp, ?_, ?_⟩
      · simp [Option.isNone_iff_eq_none.mp ha]
      · intro m hm; omega
    · rw [findFirstFree, if_neg ha] at h
      obtain ⟨hs, hlen, hget, hall⟩ := ih h
      refine ⟨by omega, by simp only [List.length_cons]; omega, ?_, ?_⟩
      · have h2 : i - s = (i - (s + 1)) + 1 := by omega
        rw [h2]
        simpa using hget
      · intro m hm
        cases m with
        | zero =>
          cases a with
          | none => simp at ha
          | some v => simp
        | succ p =>
          have h3 : p < i - (s + 1) := by omega
          simpa using hall p h3

lemma findFirstFree_none {l : List (Option Nat)} {s : Nat}
    (h : findFirstFree l s = none) :
    ∀ j, j < l.length → (l.getD j none).isSome = true := by
  induction l generalizing s with
  | nil => intro j hj; simp at hj
  | cons a t ih =>
    by_cases ha : a.isNone = true
    · rw [findFirstFree, if_pos ha] at h
      cases h
    · rw [findFirstFree, if_neg ha] at h
      intro j hj
      cases j with
      | zero =>
        cases a with
        | none => simp at ha
        | some v => simp
      | succ m => simpa using ih h m (by simpa using hj)

/-- C5, amended: under the metadata-consistency invariant, `find_free`
returns the smallest handle with no assigned slot (out-of-table handles
count as unassigned), and returns `none` only when every representable
handle is assigned. -/
theorem C5_find_free_smallest (o : NeuronOrder)
    (hcons : metaConsistent o) (hlen : o.index.length ≤ NeuronID.MAX + 1) :
    (∀ m, o.find_free = some m →
      o.indexOf m = none ∧ ∀ j, j < m → o.indexOf j ≠ none) ∧
    (o.find_free = none → ∀ h, h ≤ NeuronID.MAX → o.indexOf h ≠ none) := by
  obtain ⟨hcount, hlargest⟩ := hcons
  by_cases hp : o.is_packed = true
  · -- fast path: the table is packed, entries `0..count-1` are assigned
    have hdisj : o.count = 0 ∨ ∃ k, o.largest_used = some k ∧ k + 1 = o.count := by
      unfold NeuronOrder.is_packed at hp
      rcases h : o.largest_used with _ | k <;> simp [h] at hp
      · exact Or.inl hp
      · rcases hp with h0 | h1
        · exact Or.inl h0
        · exact Or.inr ⟨k, rfl, h1⟩
    rcases hdisj with h0 | ⟨k, hk, hkc⟩
    · -- empty table: every entry is unassigned, and `largest_used` must be unset
      have hallnone : ∀ j, j < o.index.length → o.index.getD j none = none := by
        intro j hj
        have hfil : (o.index.filter Option.isSome).length = 0 := by omega
        rw [List.length_eq_zero, List.filter_eq_nil_iff] at hfil
        have hmem : o.index.getD j none ∈ o.index := by
          rw [List.getD_eq_getElem _ _ hj]
          exact List.getElem_mem _
        have := hfil _ hmem
        cases hx : o.index.getD j none with
        | none => rfl
        | some v => rw [hx] at this; simp at this
      have hlu : o.largest_used = none := by
        cases hl : o.largest_used with
        | none => rfl
        | some k =>
          exfalso
          rw [hl] at hlargest
          obtain ⟨hk1, hk2, _⟩ := hlargest
          rw [hallnone k hk1] at hk2
          simp at hk2
      constructor
      · intro m hm
        rw [NeuronOrder.find_free, if_pos hp, hlu] at hm
        have hm2 : (some 0 : Option Nat) = some m := hm
        cases hm2
        constructor
        · unfold NeuronOrder.indexOf
          by_cases h0' : 0 < o.index.length
          · exact hallnone 0 h0'
          · rw [List.getD_eq_default]
            omega
        · intro j hj; omega
      · intro hm
        rw [NeuronOrder.find_free, if_pos hp, hlu] at hm
        have hm2 : (some 0 : Option Nat) = none := hm
        cases hm2
    · -- packed with `largest_used = some k`, `count = k + 1`
      rw [hk] at hlargest
      obtain ⟨hkn, hksome, hknone⟩ := hlargest
      -- every entry at positions `0..k` is assigned
      have hsplit : (o.index.filter Option.isSome).length =
          ((o.index.take (k + 1)).filter Option.isSome).length +
            ((o.index.drop (k + 1)).filter Option.isSome).length := by
        conv_lhs => rw [← List.take_append_drop (k + 1) o.index]
        rw [List.filter_append, List.length_append]
      have hdrop0 : ((o.index.drop (k + 1)).filter Option.isSome).length = 0 :=
        filter_drop_none (fun j hj1 hj2 => hknone j hj2 (by omega))
      have htlen : (o.index.take (k + 1)).length = k + 1 := by
        rw [List.length_take]; omega
      have htake : ((o.index.take (k + 1)).filter Option.isSome).length =
          (o.index.take (k + 1)).length := by
        rw [htlen]; omega
      have hprefix : ∀ j, j ≤ k → (o.index.getD j none).isSome = true := by
        intro j hj
        have := all_some_of_filter_len htake j (by rw [htlen]; omega)
        rwa [getD_take_eq (by omega) (by omega)] at this
      constructor
      · intro m hm
        rw [NeuronOrder.find_free, if_pos hp, hk] at hm
        have hm2 : (if k < NeuronID.MAX then some (k + 1) else (none : Option Nat)) =
            some m := hm
        by_cases hkmax : k < NeuronID.MAX
        · rw [if_pos hkmax] at hm2
          cases hm2
          constructor
          · unfold NeuronOrder.indexOf
            by_cases hin : k + 1 < o.index.length
            · exact hknone (k + 1) hin (by omega)
            · rw [List.getD_eq_default]; omega
          · intro j hj
            unfold NeuronOrder.indexOf
            have := hprefix j (by omega)
            intro hc
            rw [hc] at this
            simp at this
        · rw [if_neg hkmax] at hm2
          cases hm2
      · intro hm h hh
        rw [NeuronOrder.find_free, if_pos hp, hk] at hm
        have hm2 : (if k < NeuronID.MAX then some (k + 1) else (none : Option Nat)) =
            none := hm
        by_cases hkmax : k < NeuronID.MAX
        · rw [if_pos hkmax] at hm2; cases hm2
        · have hkeq : k = NeuronID.MAX := by
            -- `k < o.index.length ≤ MAX + 1`
            omega
          unfold NeuronOrder.indexOf
          have := hprefix h (by omega)
          intro hc
          rw [hc] at this
          simp at this
  · -- slow path: linear scan for the first unassigned entry
    constructor
    · intro m hm
      rw [NeuronOrder.find_free, if_neg hp] at hm
      cases hf : findFirstFree o.index 0 with
      | some i =>
        rw [hf] at hm
        obtain ⟨_, hilen, hinone, hiall⟩ := findFirstFree_some hf
        simp only [Nat.sub_zero] at hilen hinone hiall
        have himax : i ≤ NeuronID.MAX := by omega
        have hm2 : (match NeuronID.tryFrom i with
            | some v => some v
            | none => NeuronID.tryFrom o.index.length) = some m := hm
        rw [NeuronID.tryFrom, if_pos himax] at hm2
        have hm3 : (some i : Option Nat) = some m := hm2
        cases hm3
        constructor
        · unfold NeuronOrder.indexOf
          exact hinone
        · intro j hj
          unfold NeuronOrder.indexOf
          have := hiall j hj
          intro hc
          rw [hc] at this
          simp at this
      | none =>
        rw [hf] at hm
        have hall := findFirstFree_none hf
        have hm2 : NeuronID.tryFrom o.index.length = some m := hm
        rw [NeuronID.tryFrom] at hm2
        by_cases hLm : o.index.length ≤ NeuronID.MAX
        · rw [if_pos hLm] at hm2
          cases hm2
          constructor
          · unfold NeuronOrder.indexOf
            rw [List.getD_eq_default]
            omega
          · intro j hj
            unfold NeuronOrder.indexOf
            have := hall j hj
            intro hc
            rw [hc] at this
            simp at this
        · rw [if_neg hLm] at hm2
          cases hm2
    · intro hm h hh
      rw [NeuronOrder.find_free, if_neg hp] at hm
      cases hf : findFirstFree o.index 0 with
      | some i =>
        rw [hf] at hm
        obtain ⟨_, hilen, _, _⟩ := findFirstFree_some hf
        simp only [Nat.sub_zero] at hilen
        have himax : i ≤ NeuronID.MAX := by omega
        have hm2 : (match NeuronID.tryFrom i with
            | some v => some v
            | none => NeuronID.tryFrom o.index.length) = none := hm
        rw [NeuronID.tryFrom, if_pos himax] at hm2
        have hm3 : (some i : Option Nat) = none := hm2
        cases hm3
      | none =>
        rw [hf] at hm
        have hall := findFirstFree_none hf
        have hm2 : NeuronID.tryFrom o.index.length = none := hm
        rw [NeuronID.tryFrom] at hm2
        by_cases hLm : o.index.length ≤ NeuronID.MAX
        · rw [if_pos hLm] at hm2; cases hm2
        · unfold NeuronOrder.indexOf
          have := hall h (by omega)
          intro hc
          rw [hc] at this
          simp at this

/-- Witness for `C5_find_free_smallest` at a concrete consistent state. -/
theorem C5_find_free_smallest_witness :
    metaConsistent ⟨[some 0, some 1], 2, some 1⟩ ∧
      ([some 0, some 1] : List (Option Nat)).length ≤ NeuronID.MAX + 1 ∧
      ((∀ m, NeuronOrder.find_free ⟨[some 0, some 1], 2, some 1⟩ = some m →
          NeuronOrder.indexOf ⟨[some 0, some 1], 2, some 1⟩ m = none ∧
            ∀ j, j < m → NeuronOrder.indexOf ⟨[some 0, some 1], 2, some 1⟩ j ≠ none) ∧
        (NeuronOrder.find_free ⟨[some 0, some 1], 2, some 1⟩ = none →
          ∀ h, h ≤ NeuronID.MAX →
            NeuronOrder.indexOf ⟨[some 0, some 1], 2, some 1⟩ h ≠ none)) :=
  ⟨by decide, by decide,
    C5_find_free_smallest ⟨[some 0, some 1], 2, some 1⟩ (by decide) (by decide)⟩

/-- C5 counterexample: the state reached by
`set(0, Some 0); truncate; set(2, Some 1); set(2, None); swap(0, 2)` has
handle `0` unassigned, yet `find_free` returns handle `1`: the stale
`largest_used = Some 0` left behind by `swap` makes the `is_packed` fast
path skip the smaller free handle. -/
theorem C5_find_free_counterexample :
    NeuronOrder.swap
        ((((NeuronOrder.new.set_unchecked 0 (some 0)).truncate).set_unchecked 2
              (some 1)).set_unchecked 2 none) 0 2 =
      some ⟨[none, none, some 0], 1, some 0⟩ ∧
    NeuronOrder.indexOf ⟨[none, none, some 0], 1, some 0⟩ 0 = none ∧
    NeuronOrder.find_free ⟨[none, none, some 0], 1, some 0⟩ = some 1 := by
  decide

/-- C4: `truncate` drops a still-assigned trailing entry.  After
`set(0, Some 0); truncate; set(5, Some 1)` the handle `5` holds slot `1`
and is counted, but `largest_used` is still the stale `Some 0`, so
`truncate` cuts the table back to length `1`, destroying handle `5`'s
assignment (while `count` still claims two assigned handles). -/
theorem C4_truncate_drops_assigned_entry :
    NeuronOrder.indexOf
        (((NeuronOrder.new.set_unchecked 0 (some 0)).truncate).set_unchecked 5 (some 1)) 5 =
      some 1 ∧
    (((NeuronOrder.new.set_unchecked 0 (some 0)).truncate).set_unchecked 5 (some 1)).count = 2 ∧
    NeuronOrder.indexOf
        ((((NeuronOrder.new.set_unchecked 0 (some 0)).truncate).set_unchecked 5
              (some 1)).truncate) 5 =
      none ∧
    ((((NeuronOrder.new.set_unchecked 0 (some 0)).truncate).set_unchecked 5
          (some 1)).truncate).count = 2 := by
  decide

/-- C3: `rebuild([5, 3])` does return the map sending the i-th element of
the sequence to packed handle `i`, but the sparse table it leaves behind
is `map.keys()` — the old handles in hash order — so looking up the new
packed handle `0` yields the old raw id (5 or 3), never slot `0`,
whichever iteration order the hash map uses. -/
theorem C3_rebuild_table_broken (keys : List Nat)
    (hkeys : keys = [5, 3] ∨ keys = [3, 5]) :
    ∃ r, NeuronOrder.new.rebuild [5, 3] keys = Except.ok r ∧
      r.2 5 = some 0 ∧ r.2 3 = some 1 ∧
      r.1.indexOf 0 ≠ some 0 ∧ r.1.indexOf 1 ≠ some 1 := by
  rcases hkeys with rfl | rfl
  · exact ⟨_, rfl, by decide, by decide, by decide, by decide⟩
  · exact ⟨_, rfl, by decide, by decide, by decide, by decide⟩

/-- Witness for `C3_rebuild_table_broken` at one concrete key order. -/
theorem C3_rebuild_table_broken_witness :
    (([5, 3] : List Nat) = [5, 3] ∨ ([5, 3] : List Nat) = [3, 5]) ∧
      ∃ r, NeuronOrder.new.rebuild [5, 3] [5, 3] = Except.ok r ∧
        r.2 5 = some 0 ∧ r.2 3 = some 1 ∧
        r.1.indexOf 0 ≠ some 0 ∧ r.1.indexOf 1 ≠ some 1 :=
  ⟨Or.inl rfl, C3_rebuild_table_broken [5, 3] (Or.inl rfl)⟩

/-- A brain node record (`neuron.rs::Neuron`): handle plus activator gene. -/
structure Neuron (γ : Type) where
  id : Nat
  activator_gene : γ
deriving DecidableEq, Repr

/-- A directed edge record (`connection.rs::Connection`).  Rust's field
`from` is a Lean keyword, hence `from_`. -/
structure Connection (γ : Type) where
  from_ : Nat
  to_ : Nat
  propagator_gene : γ
deriving DecidableEq, Repr

/-- The graph container (`brain.rs::Brain`): node sequence, edge
sequence, and the handle order. -/
structure BrainData (γa γp : Type) where
  neurons : List (Neuron γa)
  connections : List (Connection γp)
  order : NeuronOrder
deriving DecidableEq, Repr

/-- `seen.extend(open.iter())` on the `BitSet`: insert each initial slot
once (set semantics). -/
def seedSeen (slots : List Nat) : List Nat :=
  slots.foldl (fun s i => if i ∈ s then s else s ++ [i]) []

/-- The inner `for next in connections.filter(from == id)` loop of
`RawBrainAccess::drop`: resolve each successor of `id` through the order
(`expect` on failure), and enqueue slots not seen before. -/
def pushSucc (ord : NeuronOrder) (id : Nat) :
    List (Connection γp) → List Nat → List Nat → Except String (List Nat × List Nat)
  | [], seen, queue => Except.ok (seen, queue)
  | c :: cs, seen, queue =>
    if c.from_ = id then
      match ord.indexOf c.to_ with
      | none => Except.error "all connections should be in the ordering"
      | some index =>
        if index ∈ seen then pushSucc ord id cs seen queue
        else pushSucc ord id cs (seen ++ [index]) (queue ++ [index])
    else pushSucc ord id cs seen queue

/-- The breadth-first `while let Some(current) = open.pop_front()` loop
of `RawBrainAccess::drop`, with an explicit fuel parameter.  The Rust
loop always terminates because every slot is enqueued at most once; the
fuel chosen in `dropAccess` is proved sufficient (`bfsLoop_no_fuel`), so
the `OUT_OF_FUEL` branch is unreachable there. -/
def bfsLoop (neurons : List (Neuron γa)) (conns : List (Connection γp))
    (ord : NeuronOrder) :
    Nat → List Nat → List Nat → List Nat → Except String (List Nat)
  | 0, _, _, _ => Except.error "OUT_OF_FUEL"
  | _ + 1, [], _, acc => Except.ok acc
  | fuel + 1, current :: rest, seen, acc =>
    match neurons.get? current with
    | none => Except.error "neuron slot out of bounds"
    | some nrn =>
      match pushSucc ord nrn.id conns seen rest with
      | Except.error e => Except.error e
      | Except.ok sq => bfsLoop neurons conns ord fuel sq.2 sq.1 (acc ++ [nrn.id])

/-- The default (no-op) `Propagator::remap_gene` hook. -/
def trivialRemap (g : γp) (_m : Nat → Option Nat) : Option γp := some g

/-- `RawBrainAccess::drop` (finalization on guard release): breadth-first
traversal from the declared inputs, handle repacking through
`NeuronOrder::rebuild`, remapping of every node and edge handle (a
missing map entry is a panic), and the final sorts — nodes by new handle,
edges by their `from` handle.  `remapGene` is the edge-gene hook
(`none` models a panic inside the hook) and `keys` is the hash-map key
iteration order handed to `rebuild`. -/
def dropAccess (b : BrainData γa γp)
    (remapGene : γp → (Nat → Option Nat) → Option γp)
    (inputs : List Nat) (keys : List Nat) : Except String (BrainData γa γp) := do
  let openInit ← mapME (fun id =>
    match b.order.indexOf id with
    | some i => Except.ok i
    | none => Except.error "all inputs should be in the ordering") inputs
  let seen0 := seedSeen openInit
  let ordList ← bfsLoop b.neurons b.connections b.order
      (inputs.length + b.order.index.length + 1) openInit seen0 []
  let rb ← b.order.rebuild ordList keys
  let map := rb.2
  let neurons' ← mapME (fun nrn =>
    match map nrn.id with
    | some nid => Except.ok { nrn with id := nid }
    | none => Except.error "neuron not reachable from inputs") b.neurons
  let connections' ← mapME (fun c =>
    -- `map[&conn.from]` is read first, then `map[&conn.to]`, then the hook
    match map c.from_, map c.to_, remapGene c.propagator_gene map with
    | some f, some t, some g => Except.ok (Connection.mk f t g)
    | none, _, _ => Except.error "connection source not in map"
    | some _, none, _ => Except.error "connection target not in map"
    | some _, some _, none => Except.error "remap gene hook failed") b.connections
  Except.ok ⟨sortByKey Neuron.id neurons',
             sortByKey Connection.from_ connections', rb.1⟩

/-- The set of slot values stored in the order table; every slot the
breadth-first search can enqueue is one of them. -/
def tableVals (ord : NeuronOrder) : Finset Nat :=
  (ord.index.filterMap id).toFinset

lemma indexOf_mem_tableVals {ord : NeuronOrder} {v s : Nat}
    (h : ord.indexOf v = some s) : s ∈ tableVals ord := by
  unfold NeuronOrder.indexOf at h
  by_cases hv : v < ord.index.length
  · rw [List.getD_eq_getElem _ _ hv] at h
    have hm : ord.index[v] ∈ ord.index := List.getElem_mem _
    rw [h] at hm
    unfold tableVals
    rw [List.mem_toFinset, List.mem_filterMap]
    exact ⟨some s, hm, rfl⟩
  · rw [List.getD_eq_default _ _ (by omega)] at h
    cases h

/-- One entry of the order table is consistent with the node-id list
`ids` when the slot it stores points back at the same id. -/
def entryOk (ids : List Nat) (v : Nat) : Option Nat → Prop
  | none => True
  | some s => s < ids.length ∧ ids.getD s 0 = v

instance (ids : List Nat) (v : Nat) : (e : Option Nat) → Decidable (entryOk ids v e)
  | none => isTrue trivial
  | some _ => by unfold entryOk; infer_instance

/-- Consistency of an order with a node-id sequence: each node's handle
resolves to its position in the sequence, and every resolving handle
points at the position holding exactly that handle.  This is the
invariant the `Brain` documentation assumes between finalizations. -/
def ordConsistent (ord : NeuronOrder) (ids : List Nat) : Prop :=
  (∀ i, i < ids.length → ord.indexOf (ids.getD i 0) = some i) ∧
  ∀ v, v < ord.index.length → entryOk ids v (ord.indexOf v)

instance (ord : NeuronOrder) (ids : List Nat) : Decidable (ordConsistent ord ids) := by
  unfold ordConsistent; infer_instance

lemma resolve_of_consistent {ord : NeuronOrder} {ids : List Nat}
    (h : ordConsistent ord ids) {v s : Nat}
    (hv : ord.indexOf v = some s) : s < ids.length ∧ ids.getD s 0 = v := by
  by_cases hl : v < ord.index.length
  · have h2 := h.2 v hl
    rw [hv] at h2
    exact h2
  · exfalso
    unfold NeuronOrder.indexOf at hv
    rw [List.getD_eq_default _ _ (by omega)] at hv
    cases hv

lemma slot_inj_of_consistent {ord : NeuronOrder} {ids : List Nat}
    (h : ordConsistent ord ids) {i j : Nat}
    (hi : i < ids.length) (hj : j < ids.length)
    (he : ids.getD i 0 = ids.getD j 0) : i = j := by
  have h1 := h.1 i hi
  have h2 := h.1 j hj
  rw [he, h2] at h1
  injection h1 with h1
  omega

lemma ids_nodup_of_consistent {ord : NeuronOrder} {ids : List Nat}
    (h : ordConsistent ord ids) : ids.Nodup := by
  rw [List.nodup_iff_injective_get]
  intro i j heq
  have := slot_inj_of_consistent h i.isLt j.isLt
    (by rw [List.getD_eq_getElem _ _ i.isLt, List.getD_eq_getElem _ _ j.isLt]
        simpa [List.get_eq_getElem] using heq)
  exact Fin.ext this

/-- Graph reachability along connections in the `from → to` direction,
starting from the declared input handles. -/
inductive Reaches {γp : Type} (conns : List (Connection γp)) (inputs : List Nat) : Nat → Prop
  | base {id : Nat} : id ∈ inputs → Reaches conns inputs id
  | step {c : Connection γp} : c ∈ conns → Reaches conns inputs c.from_ →
      Reaches conns inputs c.to_

lemma mapME_cons {f : α → Except ε β} {a : α} {l : List α} :
    mapME f (a :: l) =
      (f a).bind fun b => (mapME f l).bind fun r => Except.ok (b :: r) := rfl

lemma mapME_ok_mem_right {f : α → Except ε β} :
    ∀ {l : List α} {r}, mapME f l = Except.ok r → ∀ b ∈ r, ∃ a ∈ l, f a = Except.ok b := by
  intro l
  induction l with
  | nil =>
    intro r h b hb
    rw [mapME] at h
    cases h
    simp at hb
  | cons a t ih =>
    intro r h b hb
    rw [mapME_cons] at h
    cases hfa : f a with
    | error e => rw [hfa] at h; simp [Except.bind] at h
    | ok b0 =>
      rw [hfa] at h
      cases hmt : mapME f t with
      | error e => rw [hmt] at h; simp [Except.bind] at h
      | ok r0 =>
        rw [hmt] at h
        simp only [Except.bind] at h
        cases h
        rcases List.mem_cons.mp hb with hb | hb
        · exact ⟨a, List.mem_cons_self _ _, hb ▸ hfa⟩
        · obtain ⟨a', ha', hfa'⟩ := ih hmt b hb
          exact ⟨a', List.mem_cons_of_mem _ ha', hfa'⟩

lemma mapME_isOk {f : α → Except ε β} :
    ∀ {l : List α}, (∀ a ∈ l, ∃ b, f a = Except.ok b) → ∃ r, mapME f l = Except.ok r := by
  intro l
  induction l with
  | nil => intro _; exact ⟨[], rfl⟩
  | cons a t ih =>
    intro h
    obtain ⟨b, hb⟩ := h a (List.mem_cons_self _ _)
    obtain ⟨r, hr⟩ := ih fun x hx => h x (List.mem_cons_of_mem _ hx)
    exact ⟨b :: r, by rw [mapME_cons, hb, hr]; rfl⟩

lemma mapME_not_ok {f : α → Except ε β} {a : α} :
    ∀ {l : List α}, a ∈ l → (∀ b, f a ≠ Except.ok b) →
      ∀ r, mapME f l ≠ Except.ok r := by
  intro l
  induction l with
  | nil => intro ha; simp at ha
  | cons x t ih =>
    intro ha hf r h
    rw [mapME_cons] at h
    cases hfx : f x with
    | error e => rw [hfx] at h; simp [Except.bind] at h
    | ok b0 =>
      rw [hfx] at h
      cases hmt : mapME f t with
      | error e => rw [hmt] at h; simp [Except.bind] at h
      | ok r0 =>
        rcases List.mem_cons.mp ha with rfl | ha'
        · exact hf b0 hfx
        · exact ih ha' hf r0 hmt

lemma mapME_map {f : α → Except ε β} {g : α → β} :
    ∀ {l : List α}, (∀ a ∈ l, f a = Except.ok (g a)) →
      mapME f l = Except.ok (l.map g) := by
  intro l
  induction l with
  | nil => intro _; rfl
  | cons a t ih =>
    intro h
    rw [mapME_cons, h a (List.mem_cons_self _ _),
      ih fun x hx => h x (List.mem_cons_of_mem _ hx)]
    rfl

lemma seedSeen_aux :
    ∀ (l acc : List Nat), acc.Nodup →
      (l.foldl (fun s i => if i ∈ s then s else s ++ [i]) acc).Nodup ∧
      ∀ x, x ∈ l.foldl (fun s i => if i ∈ s then s else s ++ [i]) acc ↔
        x ∈ acc ∨ x ∈ l := by
  intro l
  induction l with
  | nil => intro acc h; exact ⟨h, fun x => by simp⟩
  | cons a t ih =>
    intro acc h
    by_cases ha : a ∈ acc
    · have := ih acc h
      simp only [List.foldl_cons, if_pos ha]
      refine ⟨this.1, fun x => ?_⟩
      rw [this.2]
      constructor
      · rintro (hx | hx)
        · exact Or.inl hx
        · exact Or.inr (List.mem_cons_of_mem _ hx)
      · rintro (hx | hx)
        · exact Or.inl hx
        · rcases List.mem_cons.mp hx with rfl | hx
          · exact Or.inl ha
          · exact Or.inr hx
    · have hacc : (acc ++ [a]).Nodup := by
        rw [List.nodup_append]
        exact ⟨h, List.nodup_singleton _, by simpa using ha⟩
      have := ih (acc ++ [a]) hacc
      simp only [List.foldl_cons, if_neg ha]
      refine ⟨this.1, fun x => ?_⟩
      rw [this.2]
      constructor
      · rintro (hx | hx)
        · rcases List.mem_append.mp hx with hx | hx
          · exact Or.inl hx
          · simp at hx
            exact Or.inr (hx ▸ List.mem_cons_self _ _)
        · exact Or.inr (List.mem_cons_of_mem _ hx)
      · rintro (hx | hx)
        · exact Or.inl (List.mem_append.mpr (Or.inl hx))
        · rcases List.mem_cons.mp hx with rfl | hx
          · exact Or.inl (List.mem_append.mpr (Or.inr (by simp)))
          · exact Or.inr hx

lemma seedSeen_nodup (l : List Nat) : (seedSeen l).Nodup :=
  (seedSeen_aux l [] List.nodup_nil).1

lemma mem_seedSeen {l : List Nat} {x : Nat} : x ∈ seedSeen l ↔ x ∈ l := by
  rw [seedSeen, (seedSeen_aux l [] List.nodup_nil).2]
  simp

lemma lastIndexOf_none_iff {l : List Nat} {a : Nat} :
    lastIndexOf l a = none ↔ a ∉ l := by
  induction l with
  | nil => simp [lastIndexOf]
  | cons x xs ih =>
    rw [lastIndexOf]
    cases h : lastIndexOf xs a with
    | some j =>
      have hmem : a ∈ xs := by
        by_contra hc
        rw [ih.mpr hc] at h
        cases h
      show some (j + 1) = none ↔ a ∉ x :: xs
      simp [List.mem_cons, hmem]
    | none =>
      have hmem : a ∉ xs := ih.mp h
      show (if x = a then some 0 else none) = none ↔ a ∉ x :: xs
      by_cases hx : x = a
      · simp [hx]
      · rw [if_neg hx]
        constructor
        · intro _
          rw [List.mem_cons]
          rintro (rfl | hm)
          · exact hx rfl
          · exact hmem hm
        · intro _; rfl

lemma lastIndexOf_some_getD {l : List Nat} {a : Nat} :
    ∀ {p}, lastIndexOf l a = some p → p < l.length ∧ l.getD p 0 = a := by
  induction l with
  | nil => intro p h; cases h
  | cons x xs ih =>
    intro p h
    rw [lastIndexOf] at h
    cases h2 : lastIndexOf xs a with
    | some j =>
      rw [h2] at h
      cases h
      have := ih h2
      exact ⟨by simp only [List.length_cons]; omega, by simpa using this.2⟩
    | none =>
      rw [h2] at h
      by_cases hx : x = a
      · rw [if_pos hx] at h
        cases h
        exact ⟨by simp, by simpa using hx⟩
      · rw [if_neg hx] at h
        cases h

lemma lastIndexOf_isSome_of_mem {l : List Nat} {a : Nat} (h : a ∈ l) :
    ∃ p, lastIndexOf l a = some p := by
  cases hl : lastIndexOf l a with
  | none => exact absurd h (lastIndexOf_none_iff.mp hl)
  | some p => exact ⟨p, rfl⟩

lemma lastIndexOf_nodup_getD {l : List Nat} (hn : l.Nodup) :
    ∀ {p}, p < l.length → lastIndexOf l (l.getD p 0) = some p := by
  induction l with
  | nil => intro p hp; simp at hp
  | cons x xs ih =>
    intro p hp
    cases p with
    | zero =>
      have hx : x ∉ xs := (List.nodup_cons.mp hn).1
      have h0 : lastIndexOf xs x = none := lastIndexOf_none_iff.mpr hx
      have hg : (x :: xs).getD 0 0 = x := rfl
      rw [hg, lastIndexOf, h0]
      show (if x = x then some 0 else none) = some 0
      rw [if_pos rfl]
    | succ q =>
      have hq : q < xs.length := by simp only [List.length_cons] at hp; omega
      have ihq := ih (List.nodup_cons.mp hn).2 hq
      have hg : (x :: xs).getD (q + 1) 0 = xs.getD q 0 := rfl
      rw [hg, lastIndexOf, ihq]

lemma nodup_mem_finset_length_le {l : List Nat} {s : Finset Nat} (hn : l.Nodup)
    (hs : ∀ x ∈ l, x ∈ s) : l.length ≤ s.card := by
  have h1 : l.toFinset.card = l.length := List.toFinset_card_of_nodup hn
  have h2 : l.toFinset ⊆ s := fun x hx => hs x (List.mem_toFinset.mp hx)
  calc l.length = l.toFinset.card := h1.symm
    _ ≤ s.card := Finset.card_le_card h2

lemma nodup_subset_length_le {l l' : List Nat} (hn : l.Nodup)
    (hs : ∀ x ∈ l, x ∈ l') : l.length ≤ l'.length := by
  have h2 : ∀ x ∈ l, x ∈ l'.toFinset := fun x hx => List.mem_toFinset.mpr (hs x hx)
  calc l.length ≤ l'.toFinset.card := nodup_mem_finset_length_le hn h2
    _ ≤ l'.length := l'.toFinset_card_le

lemma pushSucc_ok_spec {γp : Type} {ord : NeuronOrder} {id : Nat} :
    ∀ (cs : List (Connection γp)) (seen queue : List Nat) (r : List Nat × List Nat),
      pushSucc ord id cs seen queue = Except.ok r →
      ∃ δ, r.1 = seen ++ δ ∧ r.2 = queue ++ δ ∧ δ.Nodup ∧
        (∀ x ∈ δ, x ∉ seen ∧ ∃ c, c ∈ cs ∧ c.from_ = id ∧ ord.indexOf c.to_ = some x) ∧
        (∀ c, c ∈ cs → c.from_ = id → ∃ s, ord.indexOf c.to_ = some s ∧ s ∈ seen ++ δ) := by
  intro cs
  induction cs with
  | nil =>
    intro seen queue r h
    rw [pushSucc] at h
    cases h
    exact ⟨[], by simp, by simp, List.nodup_nil, by simp, by simp⟩
  | cons c cs ih =>
    intro seen queue r h
    rw [pushSucc] at h
    by_cases hc : c.from_ = id
    · rw [if_pos hc] at h
      cases hto : ord.indexOf c.to_ with
      | none => rw [hto] at h; cases h
      | some idx =>
        rw [hto] at h
        replace h : (if idx ∈ seen then pushSucc ord id cs seen queue
            else pushSucc ord id cs (seen ++ [idx]) (queue ++ [idx])) = Except.ok r := h
        by_cases hseen : idx ∈ seen
        · rw [if_pos hseen] at h
          obtain ⟨δ, h1, h2, h3, h4, h5⟩ := ih seen queue r h
          refine ⟨δ, h1, h2, h3, ?_, ?_⟩
          · intro x hx
            obtain ⟨hx1, c', hc', hcid, hcto⟩ := h4 x hx
            exact ⟨hx1, c', List.mem_cons_of_mem _ hc', hcid, hcto⟩
          · intro c' hc' hcid
            rcases List.mem_cons.mp hc' with rfl | hc'
            · exact ⟨idx, hto, List.mem_append.mpr (Or.inl hseen)⟩
            · exact h5 c' hc' hcid
        · rw [if_neg hseen] at h
          obtain ⟨δ, h1, h2, h3, h4, h5⟩ := ih (seen ++ [idx]) (queue ++ [idx]) r h
          refine ⟨idx :: δ, ?_, ?_, ?_, ?_, ?_⟩
          · rw [h1, List.append_assoc]; rfl
          · rw [h2, List.append_assoc]; rfl
          · rw [List.nodup_cons]
            refine ⟨fun hmem => ?_, h3⟩
            exact (h4 idx hmem).1 (List.mem_append.mpr (Or.inr (by simp)))
          · intro x hx
            rcases List.mem_cons.mp hx with rfl | hx
            · exact ⟨hseen, c, List.mem_cons_self _ _, hc, hto⟩
            · obtain ⟨hx1, c', hc', hcid, hcto⟩ := h4 x hx
              exact ⟨fun hm => hx1 (List.mem_append.mpr (Or.inl hm)), c',
                List.mem_cons_of_mem _ hc', hcid, hcto⟩
          · intro c' hc' hcid
            rcases List.mem_cons.mp hc' with rfl | hc'
            · exact ⟨idx, hto, List.mem_append.mpr (Or.inr (List.mem_cons_self _ _))⟩
            · obtain ⟨s, hs1, hs2⟩ := h5 c' hc' hcid
              refine ⟨s, hs1, ?_⟩
              rcases List.mem_append.mp hs2 with hs2 | hs2
              · rcases List.mem_append.mp hs2 with hs2 | hs2
                · exact List.mem_append.mpr (Or.inl hs2)
                · simp only [List.mem_singleton] at hs2
                  exact List.mem_append.mpr (Or.inr (hs2 ▸ List.mem_cons_self _ _))
              · exact List.mem_append.mpr (Or.inr (List.mem_cons_of_mem _ hs2))
    · rw [if_neg hc] at h
      obtain ⟨δ, h1, h2, h3, h4, h5⟩ := ih seen queue r h
      refine ⟨δ, h1, h2, h3, ?_, ?_⟩
      · intro x hx
        obtain ⟨hx1, c', hc', hcid, hcto⟩ := h4 x hx
        exact ⟨hx1, c', List.mem_cons_of_mem _ hc', hcid, hcto⟩
      · intro c' hc' hcid
        rcases List.mem_cons.mp hc' with rfl | hc'
        · exact absurd hcid hc
        · exact h5 c' hc' hcid

lemma pushSucc_isOk {γp : Type} {ord : NeuronOrder} {id : Nat} :
    ∀ (cs : List (Connection γp)) (seen queue : List Nat),
      (∀ c ∈ cs, c.from_ = id → ∃ s, ord.indexOf c.to_ = some s) →
      ∃ r, pushSucc ord id cs seen queue = Except.ok r := by
  intro cs
  induction cs with
  | nil => intro seen queue _; exact ⟨(seen, queue), rfl⟩
  | cons c cs ih =>
    intro seen queue h
    rw [pushSucc]
    by_cases hc : c.from_ = id
    · obtain ⟨s, hs⟩ := h c (List.mem_cons_self _ _) hc
      rw [if_pos hc, hs]
      show ∃ r, (if s ∈ seen then pushSucc ord id cs seen queue
          else pushSucc ord id cs (seen ++ [s]) (queue ++ [s])) = Except.ok r
      by_cases hseen : s ∈ seen
      · rw [if_pos hseen]
        exact ih _ _ fun c' hc' => h c' (List.mem_cons_of_mem _ hc')
      · rw [if_neg hseen]
        exact ih _ _ fun c' hc' => h c' (List.mem_cons_of_mem _ hc')
    · rw [if_neg hc]
      exact ih _ _ fun c' hc' => h c' (List.mem_cons_of_mem _ hc')

lemma idAt_get? {γa : Type} {neurons : List (Neuron γa)} {current : Nat} {nrn : Neuron γa}
    (hg : neurons.get? current = some nrn) :
    current < neurons.length ∧ (neurons.map Neuron.id).getD current 0 = nrn.id := by
  obtain ⟨h1, hget⟩ := List.get?_eq_some.mp hg
  refine ⟨h1, ?_⟩
  have h2 : current < (neurons.map Neuron.id).length := by
    rw [List.length_map]; exact h1
  rw [List.getD_eq_getElem _ _ h2, List.getElem_map]
  have h3 : neurons[current] = nrn := by simpa [List.get_eq_getElem] using hget
  rw [h3]

lemma bfsLoop_sound {γa γp : Type} {neurons : List (Neuron γa)}
    {conns : List (Connection γp)} {ord : NeuronOrder} {inputs : List Nat}
    (hcons : ordConsistent ord (neurons.map Neuron.id)) :
    ∀ fuel open_ seen acc L,
      (∀ x ∈ seen, Reaches conns inputs ((neurons.map Neuron.id).getD x 0)) →
      (∀ x ∈ open_, x ∈ seen) →
      (∀ a ∈ acc, Reaches conns inputs a) →
      bfsLoop neurons conns ord fuel open_ seen acc = Except.ok L →
      ∀ a ∈ L, Reaches conns inputs a := by
  intro fuel
  induction fuel with
  | zero =>
    intro open_ seen acc L _ _ _ h
    rw [bfsLoop] at h
    cases h
  | succ fuel ih =>
    intro open_ seen acc L hseen hopen hacc h
    cases open_ with
    | nil =>
      rw [bfsLoop] at h
      cases h
      exact hacc
    | cons current rest =>
      rw [bfsLoop] at h
      cases hg : neurons.get? current with
      | none => rw [hg] at h; cases h
      | some nrn =>
        rw [hg] at h
        replace h : (match pushSucc ord nrn.id conns seen rest with
            | Except.error e => Except.error e
            | Except.ok sq =>
              bfsLoop neurons conns ord fuel sq.2 sq.1 (acc ++ [nrn.id])) =
            Except.ok L := h
        cases hp : pushSucc ord nrn.id conns seen rest with
        | error e => rw [hp] at h; cases h
        | ok sq =>
          rw [hp] at h
          have h2 : bfsLoop neurons conns ord fuel sq.2 sq.1 (acc ++ [nrn.id]) =
              Except.ok L := h
          obtain ⟨_, hid⟩ := idAt_get? hg
          have hcr : Reaches conns inputs nrn.id := by
            have := hseen current (hopen current (List.mem_cons_self _ _))
            rwa [hid] at this
          obtain ⟨δ, hs1, hs2, _, hs4, _⟩ := pushSucc_ok_spec conns seen rest sq hp
          refine ih sq.2 sq.1 (acc ++ [nrn.id]) L ?_ ?_ ?_ h2
          · intro x hx
            rw [hs1] at hx
            rcases List.mem_append.mp hx with hx | hx
            · exact hseen x hx
            · obtain ⟨_, c, _, hcid, hcto⟩ := hs4 x hx
              obtain ⟨_, hat⟩ := resolve_of_consistent hcons hcto
              rw [hat]
              exact Reaches.step (by assumption) (hcid ▸ hcr)
          · intro x hx
            rw [hs2] at hx
            rw [hs1]
            rcases List.mem_append.mp hx with hx | hx
            · exact List.mem_append.mpr (Or.inl (hopen x (List.mem_cons_of_mem _ hx)))
            · exact List.mem_append.mpr (Or.inr hx)
          · intro a ha
            rcases List.mem_append.mp ha with ha | ha
            · exact hacc a ha
            · simp only [List.mem_singleton] at ha
              exact ha ▸ hcr

/-- Invariant of the breadth-first loop state: working queue and seen
set are duplicate-free, the queue is contained in the seen set, every
seen slot is a valid node position, every seen slot is either still
queued or fully expanded into the seen set and recorded in `acc`, and
`acc` lists exactly the ids of the dequeued slots. -/
structure BfsInv {γp : Type} (conns : List (Connection γp)) (ord : NeuronOrder)
    (ids : List Nat) (open_ seen acc : List Nat) : Prop where
  seen_nodup : seen.Nodup
  open_nodup : open_.Nodup
  open_sub : ∀ x ∈ open_, x ∈ seen
  seen_lt : ∀ x ∈ seen, x < ids.length
  seen_closed : ∀ x ∈ seen, x ∈ open_ ∨
    ∀ c, c ∈ conns → c.from_ = ids.getD x 0 →
      ∃ y, ord.indexOf c.to_ = some y ∧ y ∈ seen
  seen_acc : ∀ x ∈ seen, x ∈ open_ ∨ ids.getD x 0 ∈ acc
  acc_nodup : acc.Nodup
  acc_sub : ∀ a ∈ acc, ∃ t, t ∈ seen ∧ ids.getD t 0 = a ∧ t ∉ open_

lemma bfsLoop_ok_spec {γa γp : Type} {neurons : List (Neuron γa)}
    {conns : List (Connection γp)} {ord : NeuronOrder}
    (hcons : ordConsistent ord (neurons.map Neuron.id)) :
    ∀ fuel open_ seen acc L,
      BfsInv conns ord (neurons.map Neuron.id) open_ seen acc →
      bfsLoop neurons conns ord fuel open_ seen acc = Except.ok L →
      ∃ Sf : List Nat,
        (∀ x ∈ seen, x ∈ Sf) ∧
        (∀ x ∈ Sf, x < neurons.length ∧
          (neurons.map Neuron.id).getD x 0 ∈ L ∧
          ∀ c, c ∈ conns → c.from_ = (neurons.map Neuron.id).getD x 0 →
            ∃ y, ord.indexOf c.to_ = some y ∧ y ∈ Sf) ∧
        L.Nodup ∧
        (∀ a ∈ L, ∃ t, t ∈ Sf ∧ (neurons.map Neuron.id).getD t 0 = a) := by
  intro fuel
  induction fuel with
  | zero =>
    intro open_ seen acc L _ h
    rw [bfsLoop] at h
    cases h
  | succ fuel ih =>
    intro open_ seen acc L inv h
    cases open_ with
    | nil =>
      rw [bfsLoop] at h
      cases h
      refine ⟨seen, fun x hx => hx, ?_, inv.acc_nodup, ?_⟩
      · intro x hx
        refine ⟨?_, ?_, ?_⟩
        · have := inv.seen_lt x hx
          rwa [List.length_map] at this
        · rcases inv.seen_acc x hx with hc | hc
          · simp at hc
          · exact hc
        · rcases inv.seen_closed x hx with hc | hc
          · simp at hc
          · exact hc
      · intro a ha
        obtain ⟨t, ht1, ht2, _⟩ := inv.acc_sub a ha
        exact ⟨t, ht1, ht2⟩
    | cons current rest =>
      rw [bfsLoop] at h
      cases hg : neurons.get? current with
      | none => rw [hg] at h; cases h
      | some nrn =>
        rw [hg] at h
        replace h : (match pushSucc ord nrn.id conns seen rest with
            | Except.error e => Except.error e
            | Except.ok sq =>
              bfsLoop neurons conns ord fuel sq.2 sq.1 (acc ++ [nrn.id])) =
            Except.ok L := h
        cases hp : pushSucc ord nrn.id conns seen rest with
        | error e => rw [hp] at h; cases h
        | ok sq =>
          rw [hp] at h
          have h2 : bfsLoop neurons conns ord fuel sq.2 sq.1 (acc ++ [nrn.id]) =
              Except.ok L := h
          obtain ⟨_, hid⟩ := idAt_get? hg
          have hcs : current ∈ seen := inv.open_sub current (List.mem_cons_self _ _)
          obtain ⟨δ, hs1, hs2, hδnd, h4, h5⟩ := pushSucc_ok_spec conns seen rest sq hp
          have hrestsub : ∀ x ∈ rest, x ∈ seen :=
            fun x hx => inv.open_sub x (List.mem_cons_of_mem _ hx)
          have hcrest : current ∉ rest := (List.nodup_cons.mp inv.open_nodup).1
          have inv' : BfsInv conns ord (neurons.map Neuron.id) sq.2 sq.1
              (acc ++ [nrn.id]) := by
            rw [hs1, hs2]
            refine ⟨?_, ?_, ?_, ?_, ?_, ?_, ?_, ?_⟩
            · rw [List.nodup_append]
              exact ⟨inv.seen_nodup, hδnd, fun x hx hx' => (h4 x hx').1 hx⟩
            · rw [List.nodup_append]
              exact ⟨(List.nodup_cons.mp inv.open_nodup).2, hδnd,
                fun x hx hx' => (h4 x hx').1 (hrestsub x hx)⟩
            · intro x hx
              rcases List.mem_append.mp hx with hx | hx
              · exact List.mem_append.mpr (Or.inl (hrestsub x hx))
              · exact List.mem_append.mpr (Or.inr hx)
            · intro x hx
              rcases List.mem_append.mp hx with hx | hx
              · exact inv.seen_lt x hx
              · obtain ⟨_, c, _, _, hcto⟩ := h4 x hx
                exact (resolve_of_consistent hcons hcto).1
            · intro x hx
              rcases List.mem_append.mp hx with hx | hx
              · rcases inv.seen_closed x hx with hc | hc
                · rcases List.mem_cons.mp hc with rfl | hc
                  · right
                    intro c hcm hcf
                    rw [hid] at hcf
                    exact h5 c hcm hcf
                  · exact Or.inl (List.mem_append.mpr (Or.inl hc))
                · right
                  intro c hcm hcf
                  obtain ⟨y, hy1, hy2⟩ := hc c hcm hcf
                  exact ⟨y, hy1, List.mem_append.mpr (Or.inl hy2)⟩
              · exact Or.inl (List.mem_append.mpr (Or.inr hx))
            · intro x hx
              rcases List.mem_append.mp hx with hx | hx
              · rcases inv.seen_acc x hx with hc | hc
                · rcases List.mem_cons.mp hc with rfl | hc
                  · right
                    rw [hid]
                    exact List.mem_append.mpr (Or.inr (List.mem_cons_self _ _))
                  · exact Or.inl (List.mem_append.mpr (Or.inl hc))
                · exact Or.inr (List.mem_append.mpr (Or.inl hc))
              · exact Or.inl (List.mem_append.mpr (Or.inr hx))
            · rw [List.nodup_append]
              refine ⟨inv.acc_nodup, List.nodup_singleton _, ?_⟩
              intro a ha hasing
              simp only [List.mem_singleton] at hasing
              obtain ⟨t, ht1, ht2, ht3⟩ := inv.acc_sub a ha
              have hteq : t = current := by
                apply slot_inj_of_consistent hcons (inv.seen_lt t ht1)
                  (inv.seen_lt current hcs)
                rw [ht2, hid, hasing]
              exact ht3 (hteq ▸ List.mem_cons_self _ _)
            · intro a ha
              rcases List.mem_append.mp ha with ha | ha
              · obtain ⟨t, ht1, ht2, ht3⟩ := inv.acc_sub a ha
                refine ⟨t, List.mem_append.mpr (Or.inl ht1), ht2, ?_⟩
                intro hc
                rcases List.mem_append.mp hc with hc | hc
                · exact ht3 (List.mem_cons_of_mem _ hc)
                · exact (h4 t hc).1 ht1
              · simp only [List.mem_singleton] at ha
                refine ⟨current, List.mem_append.mpr (Or.inl hcs), ha ▸ hid, ?_⟩
                intro hc
                rcases List.mem_append.mp hc with hc | hc
                · exact hcrest hc
                · exact (h4 current hc).1 hcs
          obtain ⟨Sf, hSf1, hSf2, hSf3, hSf4⟩ := ih sq.2 sq.1 (acc ++ [nrn.id]) L inv' h2
          refine ⟨Sf, ?_, hSf2, hSf3, hSf4⟩
          intro x hx
          exact hSf1 x (by rw [hs1]; exact List.mem_append.mpr (Or.inl hx))

lemma bfsLoop_isOk {γa γp : Type} {neurons : List (Neuron γa)}
    {conns : List (Connection γp)} {ord : NeuronOrder}
    (hres : ∀ c ∈ conns, ∃ s, ord.indexOf c.to_ = some s)
    (hlen : ∀ v s, ord.indexOf v = some s → s < neurons.length) :
    ∀ fuel open_ seen acc,
      seen.Nodup → (∀ x ∈ open_, x ∈ seen) →
      (∀ x ∈ seen, x ∈ tableVals ord) →
      (∀ x ∈ seen, x < neurons.length) →
      open_.length + (tableVals ord).card < fuel + seen.length →
      ∃ L, bfsLoop neurons conns ord fuel open_ seen acc = Except.ok L := by
  intro fuel
  induction fuel with
  | zero =>
    intro open_ seen acc hnd _ htv _ hmeas
    exfalso
    have := nodup_mem_finset_length_le hnd htv
    omega
  | succ fuel ih =>
    intro open_ seen acc hnd hop htv hlt hmeas
    cases open_ with
    | nil => exact ⟨acc, by rw [bfsLoop]⟩
    | cons current rest =>
      have hcur : current < neurons.length := hlt current (hop _ (List.mem_cons_self _ _))
      have hg : neurons.get? current = some (neurons.get ⟨current, hcur⟩) :=
        List.get?_eq_get hcur
      obtain ⟨sq, hp⟩ := pushSucc_isOk conns seen rest fun c hc _ => hres c hc
      obtain ⟨δ, hs1, hs2, hδnd, h4, _⟩ := pushSucc_ok_spec conns seen rest sq hp
      have hδtv : ∀ x ∈ δ, x ∈ tableVals ord := by
        intro x hx
        obtain ⟨_, c, _, _, hcto⟩ := h4 x hx
        exact indexOf_mem_tableVals hcto
      have hδlt : ∀ x ∈ δ, x < neurons.length := by
        intro x hx
        obtain ⟨_, c, _, _, hcto⟩ := h4 x hx
        exact hlen _ _ hcto
      obtain ⟨L, hL⟩ := ih sq.2 sq.1 (acc ++ [(neurons.get ⟨current, hcur⟩).id])
        (by rw [hs1, List.nodup_append]
            exact ⟨hnd, hδnd, fun x hx hx' => (h4 x hx').1 hx⟩)
        (by rw [hs1, hs2]
            intro x hx
            rcases List.mem_append.mp hx with hx | hx
            · exact List.mem_append.mpr (Or.inl (hop x (List.mem_cons_of_mem _ hx)))
            · exact List.mem_append.mpr (Or.inr hx))
        (by rw [hs1]
            intro x hx
            rcases List.mem_append.mp hx with hx | hx
            · exact htv x hx
            · exact hδtv x hx)
        (by rw [hs1]
            intro x hx
            rcases List.mem_append.mp hx with hx | hx
            · exact hlt x hx
            · exact hδlt x hx)
        (by have e1 : sq.2.length = rest.length + δ.length := by rw [hs2, List.length_append]
            have e2 : sq.1.length = seen.length + δ.length := by rw [hs1, List.length_append]
            simp only [List.length_cons] at hmeas
            omega)
      refine ⟨L, ?_⟩
      rw [bfsLoop, hg]
      show (match pushSucc ord (neurons.get ⟨current, hcur⟩).id conns seen rest with
        | Except.error e => Except.error e
        | Except.ok sq => bfsLoop neurons conns ord fuel sq.2 sq.1
            (acc ++ [(neurons.get ⟨current, hcur⟩).id])) = Except.ok L
      rw [hp]
      exact hL

lemma ok_bind {ε α β : Type _} (a : α) (f : α → Except ε β) :
    (Except.ok a >>= f) = f a := rfl

lemma bind_eq_ok {ε α β : Type _} {x : Except ε α} {f : α → Except ε β} {r : β}
    (h : (x >>= f) = Except.ok r) : ∃ a, x = Except.ok a ∧ f a = Except.ok r := by
  cases x with
  | error e => exact Except.noConfusion h
  | ok a => exact ⟨a, rfl, h⟩

lemma getD_mem_of_lt {l : List Nat} {i : Nat} (h : i < l.length) : l.getD i 0 ∈ l := by
  rw [List.getD_eq_getElem _ _ h]
  exact List.getElem_mem _

lemma mem_iff_getD {l : List Nat} {a : Nat} (h : a ∈ l) :
    ∃ i, i < l.length ∧ l.getD i 0 = a := by
  obtain ⟨i, hi, he⟩ := List.getElem_of_mem h
  exact ⟨i, hi, by rw [List.getD_eq_getElem _ _ hi]; exact he⟩

lemma map_id_getD {γa : Type} {neurons : List (Neuron γa)} {i : Nat}
    (h : i < neurons.length) :
    (neurons.map Neuron.id).getD i 0 = (neurons.get ⟨i, h⟩).id := by
  have h2 : i < (neurons.map Neuron.id).length := by rw [List.length_map]; exact h
  rw [List.getD_eq_getElem _ _ h2, List.getElem_map, List.get_eq_getElem]

/-- Full characterisation of a successful finalization: under the order
consistency invariant, with every node input-reachable, all input and
connection handles resolving, and distinct declared inputs, `dropAccess`
succeeds, and the remap map is position-in-BFS-order over a
duplicate-free traversal list `L` that contains exactly the node ids. -/
lemma dropAccess_ok_main {γa γp : Type} (b : BrainData γa γp) (inputs keys : List Nat)
    (hcons : ordConsistent b.order (b.neurons.map Neuron.id))
    (hreach : ∀ nrn ∈ b.neurons, Reaches b.connections inputs nrn.id)
    (hinres : ∀ x ∈ inputs, ∃ s, b.order.indexOf x = some s)
    (hcres : ∀ c ∈ b.connections, (∃ s, b.order.indexOf c.from_ = some s) ∧
      ∃ s, b.order.indexOf c.to_ = some s)
    (hnodup : inputs.Nodup)
    (hsize : b.neurons.length ≤ NeuronID.MAX + 1) :
    ∃ L : List Nat, L.Nodup ∧ (∀ a, a ∈ L ↔ a ∈ b.neurons.map Neuron.id) ∧
      dropAccess b trivialRemap inputs keys =
        Except.ok ⟨sortByKey Neuron.id (b.neurons.map fun nrn =>
            ⟨(lastIndexOf L nrn.id).getD 0, nrn.activator_gene⟩),
          sortByKey Connection.from_ (b.connections.map fun c =>
            ⟨(lastIndexOf L c.from_).getD 0, (lastIndexOf L c.to_).getD 0,
              c.propagator_gene⟩),
          ⟨keys.map some, keys.length, keys.getLast?⟩⟩ := by
  have hfin : ∀ x ∈ inputs,
      (fun id => match b.order.indexOf id with
        | some i => Except.ok i
        | none => Except.error "all inputs should be in the ordering") x =
      Except.ok ((b.order.indexOf x).getD 0) := by
    intro x hx
    obtain ⟨s, hs⟩ := hinres x hx
    show (match b.order.indexOf x with
      | some i => Except.ok i
      | none => Except.error "all inputs should be in the ordering") =
      Except.ok ((b.order.indexOf x).getD 0)
    rw [hs]
    rfl
  have hmapin := mapME_map hfin
  have hslot : ∀ s ∈ inputs.map (fun x => (b.order.indexOf x).getD 0),
      ∃ x ∈ inputs, b.order.indexOf x = some s := by
    intro s hs
    obtain ⟨x, hx, hxs⟩ := List.mem_map.mp hs
    obtain ⟨sx, hsx⟩ := hinres x hx
    refine ⟨x, hx, ?_⟩
    rw [hsx] at hxs ⊢
    simp only [Option.getD_some] at hxs
    rw [hxs]
  have hopenlt : ∀ s ∈ inputs.map (fun x => (b.order.indexOf x).getD 0),
      s < b.neurons.length := by
    intro s hs
    obtain ⟨x, hx, hxr⟩ := hslot s hs
    have h1 := (resolve_of_consistent hcons hxr).1
    rwa [List.length_map] at h1
  have hopennodup : (inputs.map fun x => (b.order.indexOf x).getD 0).Nodup := by
    refine List.Nodup.map_on ?_ hnodup
    intro x hx y hy hxy
    obtain ⟨sx, hsx⟩ := hinres x hx
    obtain ⟨sy, hsy⟩ := hinres y hy
    rw [hsx, hsy] at hxy
    simp only [Option.getD_some] at hxy
    subst hxy
    have h1 := (resolve_of_consistent hcons hsx).2
    have h2 := (resolve_of_consistent hcons hsy).2
    rw [← h1, ← h2]
  have hcard : (tableVals b.order).card ≤ b.order.index.length := by
    calc (tableVals b.order).card ≤ (b.order.index.filterMap id).length :=
          List.toFinset_card_le _
      _ ≤ b.order.index.length := List.length_filterMap_le _ _
  have hlenres : ∀ v s, b.order.indexOf v = some s → s < b.neurons.length := by
    intro v s hv
    have h1 := (resolve_of_consistent hcons hv).1
    rwa [List.length_map] at h1
  obtain ⟨L, hbfs⟩ := bfsLoop_isOk (fun c hc => (hcres c hc).2) hlenres
    (inputs.length + b.order.index.length + 1)
    (inputs.map fun x => (b.order.indexOf x).getD 0)
    (seedSeen (inputs.map fun x => (b.order.indexOf x).getD 0)) []
    (seedSeen_nodup _) (fun x hx => mem_seedSeen.mpr hx)
    (fun x hx => by
      obtain ⟨x', hx', hxr⟩ := hslot x (mem_seedSeen.mp hx)
      exact indexOf_mem_tableVals hxr)
    (fun x hx => hopenlt x (mem_seedSeen.mp hx))
    (by
      have h1 : (inputs.map fun x => (b.order.indexOf x).getD 0).length =
          inputs.length := List.length_map _ _
      omega)
  have hinv : BfsInv b.connections b.order (b.neurons.map Neuron.id)
      (inputs.map fun x => (b.order.indexOf x).getD 0)
      (seedSeen (inputs.map fun x => (b.order.indexOf x).getD 0)) [] := by
    refine ⟨seedSeen_nodup _, hopennodup, fun x hx => mem_seedSeen.mpr hx,
      ?_, ?_, ?_, List.nodup_nil, ?_⟩
    · intro x hx
      have h1 := hopenlt x (mem_seedSeen.mp hx)
      rwa [List.length_map]
    · intro x hx
      exact Or.inl (mem_seedSeen.mp hx)
    · intro x hx
      exact Or.inl (mem_seedSeen.mp hx)
    · intro a ha
      simp at ha
  obtain ⟨Sf, hSf1, hSf2, hLnd, hLmem⟩ :=
    bfsLoop_ok_spec hcons _ _ _ _ L hinv hbfs
  have hreachL : ∀ id0, Reaches b.connections inputs id0 →
      ∃ t, t ∈ Sf ∧ (b.neurons.map Neuron.id).getD t 0 = id0 := by
    intro id0 hr
    induction hr with
    | base hmem =>
      rename_i x
      obtain ⟨s, hs⟩ := hinres x hmem
      have hsop : s ∈ inputs.map (fun x => (b.order.indexOf x).getD 0) :=
        List.mem_map.mpr ⟨x, hmem, by rw [hs]; rfl⟩
      exact ⟨s, hSf1 s (mem_seedSeen.mpr hsop),
        (resolve_of_consistent hcons hs).2⟩
    | step hc hrc ih =>
      rename_i c
      obtain ⟨t, htS, hta⟩ := ih
      obtain ⟨y, hy1, hy2⟩ := (hSf2 t htS).2.2 c hc hta.symm
      exact ⟨y, hy2, (resolve_of_consistent hcons hy1).2⟩
  have hLiff : ∀ a, a ∈ L ↔ a ∈ b.neurons.map Neuron.id := by
    intro a
    constructor
    · intro ha
      obtain ⟨t, htS, hta⟩ := hLmem a ha
      have hlt := (hSf2 t htS).1
      rw [← hta]
      exact getD_mem_of_lt (by rw [List.length_map]; exact hlt)
    · intro ha
      obtain ⟨i, hi, hie⟩ := mem_iff_getD ha
      have hilen : i < b.neurons.length := by rwa [List.length_map] at hi
      have hna : (b.neurons.get ⟨i, hilen⟩).id = a := by
        rw [← map_id_getD hilen]
        exact hie
      have hr := hreach _ (List.get_mem b.neurons i hilen)
      rw [hna] at hr
      obtain ⟨t, htS, hta⟩ := hreachL a hr
      have h1 := (hSf2 t htS).2.1
      rwa [hta] at h1
  have hLlen : L.length ≤ b.neurons.length := by
    have hsub : ∀ x ∈ L, x ∈ b.neurons.map Neuron.id := fun x hx => (hLiff x).mp hx
    have h2 := nodup_subset_length_le hLnd hsub
    rwa [List.length_map] at h2
  have hrb : b.order.rebuild L keys = Except.ok
      (⟨keys.map some, keys.length, keys.getLast?⟩, lastIndexOf L) := by
    rw [NeuronOrder.rebuild, if_neg (by omega : ¬ NeuronID.MAX + 1 < L.length)]
  have hgn : ∀ nrn ∈ b.neurons,
      (fun nrn : Neuron γa => match lastIndexOf L nrn.id with
        | some nid => Except.ok { nrn with id := nid }
        | none =>
          (Except.error "neuron not reachable from inputs" :
            Except String (Neuron γa))) nrn =
      Except.ok (⟨(lastIndexOf L nrn.id).getD 0, nrn.activator_gene⟩ : Neuron γa) := by
    intro nrn hn
    have hmemL : nrn.id ∈ L := (hLiff _).mpr (List.mem_map.mpr ⟨nrn, hn, rfl⟩)
    obtain ⟨p, hp⟩ := lastIndexOf_isSome_of_mem hmemL
    show (match lastIndexOf L nrn.id with
      | some nid => Except.ok { nrn with id := nid }
      | none =>
        (Except.error "neuron not reachable from inputs" :
          Except String (Neuron γa))) =
      Except.ok (⟨(lastIndexOf L nrn.id).getD 0, nrn.activator_gene⟩ : Neuron γa)
    rw [hp]
    rfl
  have hidsmem : ∀ v s, b.order.indexOf v = some s →
      v ∈ b.neurons.map Neuron.id := by
    intro v s hv
    have h2 := resolve_of_consistent hcons hv
    rw [← h2.2]
    exact getD_mem_of_lt h2.1
  have hgc : ∀ c ∈ b.connections,
      (fun c : Connection γp =>
        match lastIndexOf L c.from_, lastIndexOf L c.to_,
            trivialRemap c.propagator_gene (lastIndexOf L) with
        | some f, some t, some g => Except.ok (Connection.mk f t g)
        | none, _, _ =>
          (Except.error "connection source not in map" :
            Except String (Connection γp))
        | some _, none, _ => Except.error "connection target not in map"
        | some _, some _, none => Except.error "remap gene hook failed") c =
      Except.ok (⟨(lastIndexOf L c.from_).getD 0, (lastIndexOf L c.to_).getD 0,
        c.propagator_gene⟩ : Connection γp) := by
    intro c hc
    obtain ⟨⟨sf, hsf⟩, st, hst⟩ := hcres c hc
    have hf : c.from_ ∈ L := (hLiff _).mpr (hidsmem _ _ hsf)
    have ht : c.to_ ∈ L := (hLiff _).mpr (hidsmem _ _ hst)
    obtain ⟨pf, hpf⟩ := lastIndexOf_isSome_of_mem hf
    obtain ⟨pt, hpt⟩ := lastIndexOf_isSome_of_mem ht
    show (match lastIndexOf L c.from_, lastIndexOf L c.to_,
        trivialRemap c.propagator_gene (lastIndexOf L) with
      | some f, some t, some g => Except.ok (Connection.mk f t g)
      | none, _, _ =>
        (Except.error "connection source not in map" :
          Except String (Connection γp))
      | some _, none, _ => Except.error "connection target not in map"
      | some _, some _, none => Except.error "remap gene hook failed") =
      Except.ok (⟨(lastIndexOf L c.from_).getD 0, (lastIndexOf L c.to_).getD 0,
        c.propagator_gene⟩ : Connection γp)
    rw [hpf, hpt]
    rfl
  have hneur := mapME_map hgn
  have hconn := mapME_map hgc
  refine ⟨L, hLnd, hLiff, ?_⟩
  unfold dropAccess
  rw [hmapin]
  simp only [ok_bind]
  rw [hbfs]
  simp only [ok_bind]
  rw [hrb]
  simp only [ok_bind]
  rw [hneur]
  simp only [ok_bind]
  rw [hconn]
  simp only [ok_bind]

/-- C1: on the two-node recurrent graph `0 → 1 → 0` with input `0`,
releasing the guard leaves the nodes sorted by new handle but the
connection sequence sorted by the dense slot of the *source* (`from`)
endpoint: the target-slot sequence is `[1, 0]`, which is not sorted —
whatever key order the hash map used.  (`drop` runs
`connections.sort_by_key(|conn| conn.from)`, while the claim, the spec,
`Brain::new_unchecked`'s documentation and `State::step`'s merge-join all
require sorting by the target's dense slot.) -/
theorem C1_drop_sorts_connections_by_source (keys : List Nat) :
    (dropAccess
          (BrainData.mk [Neuron.mk 0 (), Neuron.mk 1 ()]
            [Connection.mk 0 1 (), Connection.mk 1 0 ()]
            ⟨[some 0, some 1], 2, some 1⟩)
          trivialRemap [0] keys).map
        (fun r => (r.neurons.map Neuron.id, r.connections.map fun c => (c.from_, c.to_))) =
      Except.ok ([0, 1], [(0, 1), (1, 0)]) ∧
    List.Pairwise (· ≤ ·) ([0, 1] : List Nat) ∧
    ¬ List.Pairwise (· ≤ ·) ([1, 0] : List Nat) := by
  refine ⟨rfl, by decide, by decide⟩

lemma input_resolve_of_ok {ord : NeuronOrder} {inp x : Nat}
    (h : (match ord.indexOf inp with
      | some i => Except.ok i
      | none =>
        (Except.error "all inputs should be in the ordering" :
          Except String Nat)) = Except.ok x) : ord.indexOf inp = some x := by
  cases hv : ord.indexOf inp with
  | some i =>
    rw [hv] at h
    have h2 : (Except.ok i : Except String Nat) = Except.ok x := h
    injection h2 with h2
    rw [h2]
  | none =>
    rw [hv] at h
    exact Except.noConfusion h

/-- C6, amended: with the order consistent with the node sequence,
releasing the guard aborts whenever some node is not input-reachable,
and succeeds whenever every node is input-reachable, every input and
connection handle resolves, the declared inputs are distinct and the
node count fits the handle range. -/
theorem C6_finalize_abort_contract {γa γp : Type}
    (b : BrainData γa γp) (inputs keys : List Nat)
    (hcons : ordConsistent b.order (b.neurons.map Neuron.id)) :
    ((∃ nrn, nrn ∈ b.neurons ∧ ¬ Reaches b.connections inputs nrn.id) →
      ∀ r, dropAccess b trivialRemap inputs keys ≠ Except.ok r) ∧
    ((∀ nrn ∈ b.neurons, Reaches b.connections inputs nrn.id) →
     (∀ x ∈ inputs, ∃ s, b.order.indexOf x = some s) →
     (∀ c ∈ b.connections, (∃ s, b.order.indexOf c.from_ = some s) ∧
        ∃ s, b.order.indexOf c.to_ = some s) →
     inputs.Nodup → b.neurons.length ≤ NeuronID.MAX + 1 →
     ∃ b', dropAccess b trivialRemap inputs keys = Except.ok b') := by
  constructor
  · rintro ⟨nrn, hmem, hunreach⟩ r h
    unfold dropAccess at h
    obtain ⟨openInit, hoi, h2⟩ := bind_eq_ok h
    obtain ⟨L, hbfs, h3⟩ := bind_eq_ok h2
    obtain ⟨rb, hrb, h4⟩ := bind_eq_ok h3
    obtain ⟨ns, hns, _⟩ := bind_eq_ok h4
    have hsound : ∀ a ∈ L, Reaches b.connections inputs a := by
      refine bfsLoop_sound hcons _ openInit (seedSeen openInit) [] L ?_ ?_ ?_ hbfs
      · intro x hx
        obtain ⟨inp, hinp, hfi⟩ := mapME_ok_mem_right hoi x (mem_seedSeen.mp hx)
        have hio : b.order.indexOf inp = some x := input_resolve_of_ok hfi
        rw [(resolve_of_consistent hcons hio).2]
        exact Reaches.base hinp
      · intro x hx
        exact mem_seedSeen.mpr hx
      · intro a ha
        simp at ha
    have hrb2 : rb.2 = lastIndexOf L := by
      rw [NeuronOrder.rebuild] at hrb
      by_cases hlen : NeuronID.MAX + 1 < L.length
      · rw [if_pos hlen] at hrb
        exact Except.noConfusion hrb
      · rw [if_neg hlen] at hrb
        injection hrb with hrb
        rw [← hrb]
    have hnotin : nrn.id ∉ L := fun hin => hunreach (hsound nrn.id hin)
    have hnone : lastIndexOf L nrn.id = none := lastIndexOf_none_iff.mpr hnotin
    refine mapME_not_ok hmem ?_ ns hns
    intro bb hbb
    have hbb2 : (match rb.2 nrn.id with
      | some nid => Except.ok { nrn with id := nid }
      | none =>
        (Except.error "neuron not reachable from inputs" :
          Except String (Neuron γa))) = Except.ok bb := hbb
    rw [hrb2, hnone] at hbb2
    exact Except.noConfusion hbb2
  · intro h1 h2 h3 h4 h5
    obtain ⟨L, _, _, heq⟩ := dropAccess_ok_main b inputs keys hcons h1 h2 h3 h4 h5
    exact ⟨_, heq⟩

/-- C8, amended: under the same conditions as a successful finalization,
the node handles are reassigned to exactly `0..n-1` (the sorted node-id
sequence is `range n`); and re-acquiring the guard and immediately
releasing it — the fresh guard declares no inputs — aborts on every
nonempty graph. -/
theorem C8_finalize_packs_but_reentry_fatal {γa γp : Type}
    (b : BrainData γa γp) (inputs keys : List Nat)
    (hcons : ordConsistent b.order (b.neurons.map Neuron.id)) :
    ((∀ nrn ∈ b.neurons, Reaches b.connections inputs nrn.id) →
     (∀ x ∈ inputs, ∃ s, b.order.indexOf x = some s) →
     (∀ c ∈ b.connections, (∃ s, b.order.indexOf c.from_ = some s) ∧
        ∃ s, b.order.indexOf c.to_ = some s) →
     inputs.Nodup → b.neurons.length ≤ NeuronID.MAX + 1 →
     ∃ b', dropAccess b trivialRemap inputs keys = Except.ok b' ∧
       b'.neurons.map Neuron.id = List.range b.neurons.length) ∧
    (∀ (b2 : BrainData γa γp) (keys2 : List Nat), b2.neurons ≠ [] →
      ∀ r, dropAccess b2 trivialRemap [] keys2 ≠ Except.ok r) := by
  constructor
  · intro h1 h2 h3 h4 h5
    obtain ⟨L, hLnd, hLiff, heq⟩ := dropAccess_ok_main b inputs keys hcons h1 h2 h3 h4 h5
    refine ⟨_, heq, ?_⟩
    show (sortByKey Neuron.id (b.neurons.map fun nrn =>
        ⟨(lastIndexOf L nrn.id).getD 0, nrn.activator_gene⟩)).map Neuron.id =
      List.range b.neurons.length
    have hidsnd : (b.neurons.map Neuron.id).Nodup := ids_nodup_of_consistent hcons
    have hperm : L.Perm (b.neurons.map Neuron.id) :=
      (List.perm_ext_iff_of_nodup hLnd hidsnd).mpr hLiff
    have hLlen : L.length = b.neurons.length := by
      rw [hperm.length_eq, List.length_map]
    have hB : (b.neurons.map fun nrn =>
        (⟨(lastIndexOf L nrn.id).getD 0, nrn.activator_gene⟩ : Neuron γa)).map Neuron.id =
        (b.neurons.map Neuron.id).map fun a => (lastIndexOf L a).getD 0 := by
      rw [List.map_map, List.map_map]
      rfl
    have hD : L.map (fun a => (lastIndexOf L a).getD 0) = List.range L.length := by
      refine List.ext_getElem (by rw [List.length_map, List.length_range]) ?_
      intro p hp1 hp2
      rw [List.getElem_map, List.getElem_range]
      have hpL : p < L.length := by rwa [List.length_map] at hp1
      have hg : L.getD p 0 = L[p] := List.getD_eq_getElem _ _ hpL
      rw [← hg, lastIndexOf_nodup_getD hLnd hpL]
      rfl
    have hpermX : ((sortByKey Neuron.id (b.neurons.map fun nrn =>
        ⟨(lastIndexOf L nrn.id).getD 0, nrn.activator_gene⟩)).map Neuron.id).Perm
        (List.range b.neurons.length) := by
      have p1 : (sortByKey Neuron.id (b.neurons.map fun nrn =>
          (⟨(lastIndexOf L nrn.id).getD 0, nrn.activator_gene⟩ : Neuron γa))).Perm
          (b.neurons.map fun nrn =>
            ⟨(lastIndexOf L nrn.id).getD 0, nrn.activator_gene⟩) :=
        List.perm_insertionSort _ _
      have p2 := p1.map Neuron.id
      rw [hB] at p2
      have p3 := (hperm.symm.map fun a => (lastIndexOf L a).getD 0)
      rw [hD, hLlen] at p3
      exact p2.trans p3
    have hXsorted : List.Pairwise (· ≤ ·)
        ((sortByKey Neuron.id (b.neurons.map fun nrn =>
          ⟨(lastIndexOf L nrn.id).getD 0, nrn.activator_gene⟩)).map Neuron.id) := by
      haveI hT : IsTotal (Neuron γa) (fun a b => Neuron.id a ≤ Neuron.id b) :=
        ⟨fun a b => Nat.le_total _ _⟩
      haveI hTr : IsTrans (Neuron γa) (fun a b => Neuron.id a ≤ Neuron.id b) :=
        ⟨fun a b c hab hbc => Nat.le_trans hab hbc⟩
      have hs : List.Sorted (fun a b => Neuron.id a ≤ Neuron.id b)
          (sortByKey Neuron.id (b.neurons.map fun nrn =>
            ⟨(lastIndexOf L nrn.id).getD 0, nrn.activator_gene⟩)) :=
        List.sorted_insertionSort _ _
      rw [List.pairwise_map]
      exact hs
    have hRsorted : List.Pairwise (· ≤ ·) (List.range b.neurons.length) :=
      (List.pairwise_lt_range _).imp fun h => Nat.le_of_lt h
    exact List.eq_of_perm_of_sorted hpermX hXsorted hRsorted
  · intro b2 keys2 hne r h
    unfold dropAccess at h
    obtain ⟨openInit, hoi, h2⟩ := bind_eq_ok h
    have hoinil : openInit = [] := by
      have h3 : (Except.ok [] : Except String (List Nat)) = Except.ok openInit := hoi
      injection h3 with h3
      rw [← h3]
    subst hoinil
    obtain ⟨L, hbfs, h3⟩ := bind_eq_ok h2
    have hLnil : L = [] := by
      rw [bfsLoop] at hbfs
      injection hbfs with hbfs
      rw [← hbfs]
    subst hLnil
    obtain ⟨rb, hrb, h4⟩ := bind_eq_ok h3
    have hrb2 : rb.2 = lastIndexOf [] := by
      rw [NeuronOrder.rebuild, if_neg (by simp : ¬ NeuronID.MAX + 1 < ([] : List Nat).length)]
        at hrb
      injection hrb with hrb
      rw [← hrb]
    obtain ⟨ns, hns, _⟩ := bind_eq_ok h4
    cases hns2 : b2.neurons with
    | nil => exact hne hns2
    | cons n0 rest =>
      refine mapME_not_ok (hns2 ▸ List.mem_cons_self n0 rest) ?_ ns hns
      intro bb hbb
      have hbb2 : (match rb.2 n0.id with
        | some nid => Except.ok { n0 with id := nid }
        | none =>
          (Except.error "neuron not reachable from inputs" :
            Except String (Neuron γa))) = Except.ok bb := hbb
      rw [hrb2] at hbb2
      exact Except.noConfusion hbb2

/-- Witness for `C6_finalize_abort_contract`: the success direction on a
consistent two-node graph `0 → 1` with input `0`. -/
theorem C6_finalize_abort_contract_witness :
    ordConsistent (⟨[some 0, some 1], 2, some 1⟩ : NeuronOrder)
        ([Neuron.mk 0 (), Neuron.mk 1 ()].map Neuron.id) ∧
    ∃ b', dropAccess (BrainData.mk [Neuron.mk 0 (), Neuron.mk 1 ()]
        [Connection.mk 0 1 ()] ⟨[some 0, some 1], 2, some 1⟩)
        trivialRemap [0] [7] = Except.ok b' :=
  ⟨by decide,
    (C6_finalize_abort_contract
        (BrainData.mk [Neuron.mk 0 (), Neuron.mk 1 ()]
          [Connection.mk 0 1 ()] ⟨[some 0, some 1], 2, some 1⟩)
        [0] [7] (by decide)).2
      (by
        intro nrn h
        rcases List.mem_cons.mp h with rfl | h
        · exact Reaches.base (List.mem_singleton.mpr rfl)
        · rcases List.mem_cons.mp h with rfl | h
          · exact @Reaches.step Unit [Connection.mk 0 1 ()] [0]
              (Connection.mk 0 1 ()) (List.mem_singleton.mpr rfl)
              (Reaches.base (List.mem_singleton.mpr rfl))
          · simp at h)
      (by
        intro x hx
        rw [List.mem_singleton] at hx
        subst hx
        exact ⟨0, by decide⟩)
      (by
        intro c hc
        rw [List.mem_singleton] at hc
        subst hc
        exact ⟨⟨0, by decide⟩, 1, by decide⟩)
      (by decide) (by decide)⟩

/-- Witness for `C8_finalize_packs_but_reentry_fatal`: the packing
direction on the same two-node graph. -/
theorem C8_finalize_packs_but_reentry_fatal_witness :
    ordConsistent (⟨[some 0, some 1], 2, some 1⟩ : NeuronOrder)
        ([Neuron.mk 0 (), Neuron.mk 1 ()].map Neuron.id) ∧
    ∃ b', dropAccess (BrainData.mk [Neuron.mk 0 (), Neuron.mk 1 ()]
        [Connection.mk 0 1 ()] ⟨[some 0, some 1], 2, some 1⟩)
        trivialRemap [0] [7] = Except.ok b' ∧
      b'.neurons.map Neuron.id =
        List.range [Neuron.mk 0 (), Neuron.mk 1 ()].length :=
  ⟨by decide,
    (C8_finalize_packs_but_reentry_fatal
        (BrainData.mk [Neuron.mk 0 (), Neuron.mk 1 ()]
          [Connection.mk 0 1 ()] ⟨[some 0, some 1], 2, some 1⟩)
        [0] [7] (by decide)).1
      (by
        intro nrn h
        rcases List.mem_cons.mp h with rfl | h
        · exact Reaches.base (List.mem_singleton.mpr rfl)
        · rcases List.mem_cons.mp h with rfl | h
          · exact @Reaches.step Unit [Connection.mk 0 1 ()] [0]
              (Connection.mk 0 1 ()) (List.mem_singleton.mpr rfl)
              (Reaches.base (List.mem_singleton.mpr rfl))
          · simp at h)
      (by
        intro x hx
        rw [List.mem_singleton] at hx
        subst hx
        exact ⟨0, by decide⟩)
      (by
        intro c hc
        rw [List.mem_singleton] at hc
        subst hc
        exact ⟨⟨0, by decide⟩, 1, by decide⟩)
      (by decide) (by decide)⟩

/-- C6 counterexample: a single node with handle `0`, declared as input
(hence trivially input-reachable), no connections, and an order in which
handle `0` *resolves* — to the out-of-range slot `5`.  Releasing the
guard aborts anyway (slot `5` is outside the node sequence), so
"completes without error whenever every node is input-reachable and
every input and connection handle resolves" is false: success also needs
the order to map handles to their actual dense positions. -/
theorem C6_finalize_counterexample :
    NeuronOrder.indexOf ⟨[some 5], 1, some 0⟩ 0 = some 5 ∧
    dropAccess (BrainData.mk [Neuron.mk 0 ()] ([] : List (Connection Unit))
          ⟨[some 5], 1, some 0⟩)
        trivialRemap [0] [0] =
      Except.error "neuron slot out of bounds" := by
  refine ⟨by decide, rfl⟩

/-- C8 counterexample: finalizing the one-node graph succeeds and is a
fixed point, but acquiring the guard again and *immediately* releasing it
aborts: `Brain::raw` starts with an empty `inputs` list, so the second
finalization sees every node as unreachable.  This refutes "acquiring the
mutation guard and immediately releasing it succeeds and leaves the
sequences unchanged". -/
theorem C8_refinalize_empty_inputs_fatal :
    dropAccess (BrainData.mk [Neuron.mk 0 ()] ([] : List (Connection Unit))
          ⟨[some 0], 1, some 0⟩)
        trivialRemap [0] [0] =
      Except.ok (BrainData.mk [Neuron.mk 0 ()] ([] : List (Connection Unit))
          ⟨[some 0], 1, some 0⟩) ∧
    dropAccess (BrainData.mk [Neuron.mk 0 ()] ([] : List (Connection Unit))
          ⟨[some 0], 1, some 0⟩)
        trivialRemap [] [] =
      Except.error "neuron not reachable from inputs" := by
  refine ⟨rfl, rfl⟩

/-- Interface markers (`state.rs::Interface`). -/
inductive Interface where
  | input : Nat → Interface
  | output : Nat → Interface
deriving DecidableEq, Repr

/-- The pluggable Activator/Propagator/Collector capability surface of
`State::step`, with the `Config` values captured inside the operations
(the engine threads them through unchanged).  `VA` is the collector
output / activator input, `VO` the activator output / propagator input,
`VC` the propagator output / collector input, `O` the external output
element type, `γa`/`γp` the node/edge gene types. -/
structure Engine (A P C VA VO VC O γa γp : Type) where
  activate : A → VA → γa → A
  aoutput : A → VO
  modulation : γp → List Nat
  propagate : P → VO → List VO → γp → P × VC
  cpush : C → VC → C
  ccollect : C → C × VA
  cclear : C → C
  oconv : VO → O

/-- `State::get`: resolve a neuron id to its dense slot through the
order and read that per-node state (the `expect` and a slot beyond the
state buffer are panics). -/
def getState {A : Type} (states : List A) (ord : NeuronOrder) (id : Nat) :
    Except String A :=
  match ord.indexOf id with
  | none => Except.error "all neurons should be included in the order"
  | some s =>
    match states.get? s with
    | none => Except.error "neuron state out of bounds"
    | some a => Except.ok a

/-- The `while let Some(edge) = connections.next_if(|(conn, _)| conn.to == neuron.id)`
merge-join cursor: process the pending edges targeting the current
neuron.  The modulation scratch buffer is rebuilt (and thus cleared) per
edge, exactly as in `State::push`; the updated per-edge state is not
revisited within the tick. -/
def procConns {A P C VA VO VC O γa γp : Type} (E : Engine A P C VA VO VC O γa γp)
    (ord : NeuronOrder) (states : List A) (id : Nat) :
    List (Connection γp × P) → C → Except String (List (Connection γp × P) × C)
  | [], coll => Except.ok ([], coll)
  | (c, p) :: rest, coll =>
    if c.to_ = id then
      match getState states ord c.from_ with
      | Except.error e => Except.error e
      | Except.ok srcA =>
        match mapME (fun mid => (getState states ord mid).map E.aoutput)
            (E.modulation c.propagator_gene) with
        | Except.error e => Except.error e
        | Except.ok mods =>
          procConns E ord states id rest
            (E.cpush coll (E.propagate p (E.aoutput srcA) mods c.propagator_gene).2)
    else
      Except.ok ((c, p) :: rest, coll)

/-- One `interface.next_if(Input(id))` probe: returns the remaining
marker list and how many markers were consumed (`0` or `1`). -/
def scanIn (id : Nat) (markers : List Interface) : List Interface × Nat :=
  match markers with
  | Interface.input k :: mrest =>
    if k = id then (mrest, 1) else (markers, 0)
  | _ => (markers, 0)

/-- One `interface.next_if(Output(id))` probe. -/
def scanOut (id : Nat) (markers : List Interface) : List Interface × Nat :=
  match markers with
  | Interface.output k :: mrest =>
    if k = id then (mrest, 1) else (markers, 0)
  | _ => (markers, 0)

/-- Marker bookkeeping of one full pass over the node sequence:
how many `Input`/`Output` markers `State::step` consumes, and the
markers left unconsumed.  This depends only on the node ids and the
marker list — never on the processed values. -/
def markerScan : List Nat → List Interface → Nat × Nat × List Interface
  | [], ms => (0, 0, ms)
  | id :: ids, ms =>
    let s1 := scanIn id ms
    let s2 := scanOut id s1.1
    let r := markerScan ids s2.1
    (s1.2 + r.1, s2.2 + r.2.1, r.2.2)

/-- `if let Some(input) = interface.next_if(Input(id))` followed by
`collector.push(inputs.next().expect("input buffer is not big enough"))`:
when the probe consumed a marker (`din = 1`), pull the next external
input value (fatal if exhausted) into the collector. -/
def stepIn {A P C VA VO VC O γa γp : Type} (E : Engine A P C VA VO VC O γa γp)
    (din : Nat) (inputs : List VC) (coll : C) : Except String (List VC × C) :=
  if din = 1 then
    match inputs with
    | [] => Except.error "input buffer is not big enough"
    | v :: vrest => Except.ok (vrest, E.cpush coll v)
  else Except.ok (inputs, coll)

/-- `if let Some(output) = interface.next_if(Output(id))` followed by
`*outputs.next().expect("output buffer is not big enough") = ...`: when
the probe consumed a marker (`dout = 1`), write the node output to the
next external output slot (fatal if the buffer is exhausted). -/
def stepOut {A P C VA VO VC O γa γp : Type} (E : Engine A P C VA VO VC O γa γp)
    (dout : Nat) (outCap : Nat) (outs : List O) (aNew : A) :
    Except String (Nat × List O) :=
  if dout = 1 then
    match outCap with
    | 0 => Except.error "output buffer is not big enough"
    | cap + 1 => Except.ok (cap, outs ++ [E.oconv (E.aoutput aNew)])
  else Except.ok (outCap, outs)

/-- `self.state[index]` positional access to the node-state buffer. -/
def getAt {A : Type} (states : List A) (pos : Nat) : Except String A :=
  match states.get? pos with
  | none => Except.error "neuron state out of bounds"
  | some a => Except.ok a

/-- The body of `State::step`: one linear pass over the node sequence in
order, per node (a) consume a pending `Input` marker (one external input
value into the collector), (b) merge-join the pending edges targeting
this node, (c) collect, activate the node state at the positional index,
clear the collector, (d) consume a pending `Output` marker (write the
node output to the next external output slot).  `outCap` is the length
of the yet-unwritten part of the caller's output buffer; `outs`
accumulates the written values. -/
def stepGo {A P C VA VO VC O γa γp : Type} (E : Engine A P C VA VO VC O γa γp)
    (ord : NeuronOrder) :
    List (Neuron γa) → Nat → List A → List (Connection γp × P) → List Interface →
    List VC → Nat → List O → C → Except String (List A × List O)
  | [], _, states, _, _, _, _, outs, _ => Except.ok (states, outs)
  | nrn :: ns, pos, states, conns, markers, inputs, outCap, outs, coll => do
    let ic ← stepIn E (scanIn nrn.id markers).2 inputs coll
    let rc ← procConns E ord states nrn.id conns ic.2
    let aOld ← getAt states pos
    let oc ← stepOut E (scanOut nrn.id (scanIn nrn.id markers).1).2 outCap outs
      (E.activate aOld (E.ccollect rc.2).2 nrn.activator_gene)
    stepGo E ord ns (pos + 1)
      (states.set pos (E.activate aOld (E.ccollect rc.2).2 nrn.activator_gene))
      rc.1 (scanOut nrn.id (scanIn nrn.id markers).1).1 ic.1 oc.1 oc.2
      (E.cclear (E.ccollect rc.2).1)

/-- `State::step`: inputs are pre-converted external values, `outCap`
the output buffer length; returns the final node states and the written
outputs. -/
def step {A P C VA VO VC O γa γp : Type} (E : Engine A P C VA VO VC O γa γp)
    (neurons : List (Neuron γa)) (conns : List (Connection γp)) (ord : NeuronOrder)
    (states : List A) (connStates : List P) (markers : List Interface)
    (inputs : List VC) (outCap : Nat) (coll : C) :
    Except String (List A × List O) :=
  stepGo E ord neurons 0 states (conns.zip connStates) markers inputs outCap [] coll

/-- Signal kinds of the `state.rs` test semantics. -/
inductive SignalKind where
  | data
  | control
deriving DecidableEq, Repr

/-- The test `Weight`: a direct weight or a modulation by another
neuron's current output. -/
inductive Weight where
  | direct : Int → Weight
  | modulated : Nat → Weight
deriving DecidableEq, Repr

/-- The test `ConnectionGene`. -/
structure ConnectionGene where
  kind : SignalKind
  weight : Weight
deriving DecidableEq, Repr

/-- The `state.rs` test semantics (`TestActivator`/`TestPropagator`/
`TestCollector`) over exact integers.  All values arising in the XOR
scenario are small integers, on which the `f64` operations of the Rust
code are exact, so `Int` is a faithful carrier.  Captured configs: the
activation threshold is the default `0.0`; the activator gene is the
`speed` factor.  `modulation[0]` on an empty modulation buffer would
panic in Rust; `headD 0` only coincides with it on the executed paths,
where the buffer is never empty (`Weight::modulated` always resolves one
value). -/
def testEngine : Engine Int Unit (Int × Int) (Int × Int) Int (SignalKind × Int)
    Int Int ConnectionGene where
  activate a va speed := if 0 ≤ va.2 then a + (va.1 - a) * speed else 0
  aoutput a := a
  modulation g := match g.weight with
    | Weight.direct _ => []
    | Weight.modulated id => [id]
  propagate p input mods g :=
    (p, (g.kind, match g.weight with
      | Weight.direct w => input * w
      | Weight.modulated _ => input * mods.headD 0))
  cpush s v := match v.1 with
    | SignalKind.data => (s.1 + v.2, s.2)
    | SignalKind.control => (s.1, s.2 + v.2)
  ccollect s := (s, s)
  cclear _ := (0, 0)
  oconv v := v

/-- The XOR graph of `state.rs::test::xor` in finalized form: neurons
`0`,`1` (inputs), `2` (modulated product), `3` (gated sum, the output);
connections sorted by target dense slot, order packed to the identity.
The `&f64 → Signal` input conversion the test harness relies on is
absent from the sources; following the spec ("consume one value from the
external input sequence into the shared aggregator" under identity-sum
semantics) an external input becomes a `data`-kind signal. -/
def xorBrainNeurons : List (Neuron Int) :=
  [⟨0, 1⟩, ⟨1, 1⟩, ⟨2, 1⟩, ⟨3, 1⟩]

def xorBrainConns : List (Connection ConnectionGene) :=
  [⟨0, 2, ⟨SignalKind.data, Weight.modulated 1⟩⟩,
   ⟨0, 3, ⟨SignalKind.data, Weight.direct 1⟩⟩,
   ⟨1, 3, ⟨SignalKind.data, Weight.direct 1⟩⟩,
   ⟨2, 3, ⟨SignalKind.control, Weight.direct (-1)⟩⟩]

def xorOrder : NeuronOrder := ⟨[some 0, some 1, some 2, some 3], 4, some 3⟩

/-- One tick on the XOR brain from a fresh state (`run` in the test):
two sensor values in, one action value out. -/
def xorRun (i0 i1 : Int) : Except String (List Int) :=
  (step testEngine xorBrainNeurons xorBrainConns xorOrder [0, 0, 0, 0]
      [(), (), (), ()] [Interface.input 0, Interface.input 1, Interface.output 3]
      [(SignalKind.data, i0), (SignalKind.data, i1)] 1 (0, 0)).map
    fun r => r.2

/-- C2: one tick of `State::step` on the four-node XOR graph computes
XOR on each of the four input pairs, from a fresh state each time. -/
theorem C2_xor_single_tick :
    xorRun 0 0 = Except.ok [0] ∧ xorRun 1 0 = Except.ok [1] ∧
    xorRun 0 1 = Except.ok [1] ∧ xorRun 1 1 = Except.ok [0] := by
  refine ⟨?_, ?_, ?_, ?_⟩ <;> rfl

lemma err_bind {ε α β : Type _} (e : ε) (f : α → Except ε β) :
    ((Except.error e : Except ε α) >>= f) = Except.error e := rfl

lemma scanIn_cases (id : Nat) (ms : List Interface) :
    scanIn id ms = (ms, 0) ∨
    ∃ mrest, ms = Interface.input id :: mrest ∧ scanIn id ms = (mrest, 1) := by
  match ms with
  | [] => exact Or.inl rfl
  | Interface.input k :: mrest =>
    by_cases hk : k = id
    · subst hk
      exact Or.inr ⟨mrest, rfl, by simp [scanIn]⟩
    · exact Or.inl (by simp [scanIn, hk])
  | Interface.output k :: mrest => exact Or.inl rfl

lemma scanOut_cases (id : Nat) (ms : List Interface) :
    scanOut id ms = (ms, 0) ∨
    ∃ mrest, ms = Interface.output id :: mrest ∧ scanOut id ms = (mrest, 1) := by
  match ms with
  | [] => exact Or.inl rfl
  | Interface.output k :: mrest =>
    by_cases hk : k = id
    · subst hk
      exact Or.inr ⟨mrest, rfl, by simp [scanOut]⟩
    · exact Or.inl (by simp [scanOut, hk])
  | Interface.input k :: mrest => exact Or.inl rfl

/-- `Interface::Input` discriminator (`body.rs` marker kinds). -/
def isInputM : Interface → Bool
  | Interface.input _ => true
  | Interface.output _ => false

/-- `Interface::Output` discriminator. -/
def isOutputM : Interface → Bool
  | Interface.input _ => false
  | Interface.output _ => true

/-- Conservation of markers: the consumed `Input`/`Output` counts plus
the unconsumed ones of each kind add up to the declared counts.  In
particular, when the scan consumes the whole marker list, the consumed
counts ARE the declared sensor/action counts of the body. -/
lemma markerScan_total : ∀ (ids : List Nat) (ms : List Interface),
    (markerScan ids ms).1 + ((markerScan ids ms).2.2.filter isInputM).length =
      (ms.filter isInputM).length ∧
    (markerScan ids ms).2.1 + ((markerScan ids ms).2.2.filter isOutputM).length =
      (ms.filter isOutputM).length := by
  intro ids
  induction ids with
  | nil => intro ms; exact ⟨by simp [markerScan], by simp [markerScan]⟩
  | cons id ids ih =>
    intro ms
    have hm : markerScan (id :: ids) ms =
        ((scanIn id ms).2 + (markerScan ids (scanOut id (scanIn id ms).1).1).1,
         (scanOut id (scanIn id ms).1).2 +
           (markerScan ids (scanOut id (scanIn id ms).1).1).2.1,
         (markerScan ids (scanOut id (scanIn id ms).1).1).2.2) := rfl
    rcases scanIn_cases id ms with h1 | ⟨m1, hm1, h1⟩
    · rcases scanOut_cases id ms with h2 | ⟨m2, hm2, h2⟩
      · have := ih ms
        rw [hm, h1]
        dsimp only
        rw [h2]
        dsimp only
        exact ⟨by omega, by omega⟩
      · subst hm2
        have := ih m2
        rw [hm, h1]
        dsimp only
        rw [h2]
        dsimp only
        constructor
        · have hf : ((Interface.output id :: m2).filter isInputM) = m2.filter isInputM := by
            simp [List.filter_cons, isInputM]
          rw [hf]; omega
        · have hf : ((Interface.output id :: m2).filter isOutputM) =
              Interface.output id :: m2.filter isOutputM := by
            simp [List.filter_cons, isOutputM]
          rw [hf]
          simp only [List.length_cons]
          omega
    · subst hm1
      rcases scanOut_cases id m1 with h2 | ⟨m2, hm2, h2⟩
      · have := ih m1
        rw [hm, h1]
        dsimp only
        rw [h2]
        dsimp only
        constructor
        · have hf : ((Interface.input id :: m1).filter isInputM) =
              Interface.input id :: m1.filter isInputM := by
            simp [List.filter_cons, isInputM]
          rw [hf]
          simp only [List.length_cons]
          omega
        · have hf : ((Interface.input id :: m1).filter isOutputM) = m1.filter isOutputM := by
            simp [List.filter_cons, isOutputM]
          rw [hf]; omega
      · subst hm2
        have := ih m2
        rw [hm, h1]
        dsimp only
        rw [h2]
        dsimp only
        constructor
        · have hf : ((Interface.input id :: Interface.output id :: m2).filter isInputM) =
              Interface.input id :: m2.filter isInputM := by
            simp [List.filter_cons, isInputM]
          rw [hf]
          simp only [List.length_cons]
          omega
        · have hf : ((Interface.input id :: Interface.output id :: m2).filter isOutputM) =
              Interface.output id :: m2.filter isOutputM := by
            simp [List.filter_cons, isOutputM]
          rw [hf]
          simp only [List.length_cons]
          omega

/-- Every handle `State::step` dereferences for this edge — the `from`
endpoint and every modulating handle — resolves in the Order to a slot
inside the node-state buffer (length `n`). -/
def connResolvable {A P C VA VO VC O γa γp : Type} (E : Engine A P C VA VO VC O γa γp)
    (ord : NeuronOrder) (n : Nat) (c : Connection γp) : Prop :=
  (∃ s, ord.indexOf c.from_ = some s ∧ s < n) ∧
  ∀ m ∈ E.modulation c.propagator_gene, ∃ s, ord.indexOf m = some s ∧ s < n

lemma getState_isOk {A : Type} {states : List A} {ord : NeuronOrder} {id : Nat}
    (h : ∃ s, ord.indexOf id = some s ∧ s < states.length) :
    ∃ a, getState states ord id = Except.ok a := by
  obtain ⟨s, hs, hlt⟩ := h
  refine ⟨states.get ⟨s, hlt⟩, ?_⟩
  rw [getState, hs]
  show (match states.get? s with
    | none => (Except.error "neuron state out of bounds" : Except String A)
    | some a => Except.ok a) = Except.ok (states.get ⟨s, hlt⟩)
  rw [List.get?_eq_get hlt]

lemma getAt_ok {A : Type} {states : List A} {pos : Nat} (h : pos < states.length) :
    getAt states pos = Except.ok (states.get ⟨pos, h⟩) := by
  rw [getAt, List.get?_eq_get h]

/-- The merge-join edge pass never fails when every edge's handles
resolve into the state buffer, and the remaining edge cursor is drawn
from the incoming edges. -/
lemma procConns_ok {A P C VA VO VC O γa γp : Type} (E : Engine A P C VA VO VC O γa γp)
    (ord : NeuronOrder) :
    ∀ (conns : List (Connection γp × P)) (states : List A) (id : Nat) (coll : C),
      (∀ cp ∈ conns, connResolvable E ord states.length cp.1) →
      ∃ r, procConns E ord states id conns coll = Except.ok r ∧
        ∀ cp ∈ r.1, cp ∈ conns := by
  intro conns
  induction conns with
  | nil =>
    intro states id coll _
    exact ⟨([], coll), rfl, by intro cp h; exact absurd h (List.not_mem_nil cp)⟩
  | cons cp0 rest ih =>
    intro states id coll hres
    obtain ⟨c, p⟩ := cp0
    by_cases hto : c.to_ = id
    · obtain ⟨a, ha⟩ := getState_isOk (hres (c, p) (List.mem_cons_self _ _)).1
      have hmods0 : ∀ m ∈ E.modulation c.propagator_gene,
          ∃ b, ((getState states ord m).map E.aoutput) = Except.ok b := by
        intro m hm
        obtain ⟨a2, ha2⟩ := getState_isOk ((hres (c, p) (List.mem_cons_self _ _)).2 m hm)
        exact ⟨E.aoutput a2, by rw [ha2]; rfl⟩
      obtain ⟨mods, hmods⟩ := mapME_isOk hmods0
      obtain ⟨r, hr, hsub⟩ := ih states id
        (E.cpush coll (E.propagate p (E.aoutput a) mods c.propagator_gene).2)
        (fun x hx => hres x (List.mem_cons_of_mem _ hx))
      refine ⟨r, ?_, fun x hx => List.mem_cons_of_mem _ (hsub x hx)⟩
      rw [procConns, if_pos hto, ha]
      show (match mapME (fun mid => (getState states ord mid).map E.aoutput)
          (E.modulation c.propagator_gene) with
        | Except.error e => Except.error e
        | Except.ok mods => procConns E ord states id rest
            (E.cpush coll (E.propagate p (E.aoutput a) mods c.propagator_gene).2)) =
        Except.ok r
      rw [hmods]
      exact hr
    · exact ⟨((c, p) :: rest, coll), by rw [procConns, if_neg hto], fun x hx => hx⟩

lemma stepGo_cons_eq {A P C VA VO VC O γa γp : Type} {E : Engine A P C VA VO VC O γa γp}
    {ord : NeuronOrder} {nrn : Neuron γa} (ns : List (Neuron γa)) {pos : Nat}
    {states : List A} {conns : List (Connection γp × P)} {markers : List Interface}
    {inputs : List VC} {outCap : Nat} {outs : List O} {coll : C}
    {ic : List VC × C} {rc : List (Connection γp × P) × C} {aOld : A} {oc : Nat × List O}
    (hic : stepIn E (scanIn nrn.id markers).2 inputs coll = Except.ok ic)
    (hp : procConns E ord states nrn.id conns ic.2 = Except.ok rc)
    (hget : getAt states pos = Except.ok aOld)
    (hoc : stepOut E (scanOut nrn.id (scanIn nrn.id markers).1).2 outCap outs
      (E.activate aOld (E.ccollect rc.2).2 nrn.activator_gene) = Except.ok oc) :
    stepGo E ord (nrn :: ns) pos states conns markers inputs outCap outs coll =
      stepGo E ord ns (pos + 1)
        (states.set pos (E.activate aOld (E.ccollect rc.2).2 nrn.activator_gene))
        rc.1 (scanOut nrn.id (scanIn nrn.id markers).1).1 ic.1 oc.1 oc.2
        (E.cclear (E.ccollect rc.2).1) := by
  rw [stepGo, hic]
  simp only [ok_bind]
  rw [hp]
  simp only [ok_bind]
  rw [hget]
  simp only [ok_bind]
  rw [hoc]
  simp only [ok_bind]

lemma stepGo_cons_err_in {A P C VA VO VC O γa γp : Type}
    {E : Engine A P C VA VO VC O γa γp}
    {ord : NeuronOrder} {nrn : Neuron γa} (ns : List (Neuron γa)) {pos : Nat}
    {states : List A} {conns : List (Connection γp × P)} {markers : List Interface}
    {inputs : List VC} {outCap : Nat} {outs : List O} {coll : C} {e : String}
    (h : stepIn E (scanIn nrn.id markers).2 inputs coll = Except.error e) :
    stepGo E ord (nrn :: ns) pos states conns markers inputs outCap outs coll =
      Except.error e := by
  rw [stepGo, h]
  rfl

lemma stepGo_cons_err_out {A P C VA VO VC O γa γp : Type}
    {E : Engine A P C VA VO VC O γa γp}
    {ord : NeuronOrder} {nrn : Neuron γa} (ns : List (Neuron γa)) {pos : Nat}
    {states : List A} {conns : List (Connection γp × P)} {markers : List Interface}
    {inputs : List VC} {outCap : Nat} {outs : List O} {coll : C}
    {ic : List VC × C} {rc : List (Connection γp × P) × C} {aOld : A} {e : String}
    (hic : stepIn E (scanIn nrn.id markers).2 inputs coll = Except.ok ic)
    (hp : procConns E ord states nrn.id conns ic.2 = Except.ok rc)
    (hget : getAt states pos = Except.ok aOld)
    (hoc : stepOut E (scanOut nrn.id (scanIn nrn.id markers).1).2 outCap outs
      (E.activate aOld (E.ccollect rc.2).2 nrn.activator_gene) = Except.error e) :
    stepGo E ord (nrn :: ns) pos states conns markers inputs outCap outs coll =
      Except.error e := by
  rw [stepGo, hic]
  simp only [ok_bind]
  rw [hp]
  simp only [ok_bind]
  rw [hget]
  simp only [ok_bind]
  rw [hoc]
  rfl

/-- Length contract of the `State::step` pass: a run aborts (is never
`ok`) when the external input list is shorter than the number of `Input`
markers consumed, or the output capacity smaller than the number of
`Output` markers consumed; with enough of both the pass succeeds,
writing exactly one output per consumed `Output` marker — surplus
inputs/capacity are silently ignored, nothing is padded. -/
lemma stepGo_contract {A P C VA VO VC O γa γp : Type} (E : Engine A P C VA VO VC O γa γp)
    (ord : NeuronOrder) :
    ∀ (ns : List (Neuron γa)) (pos : Nat) (states : List A)
      (conns : List (Connection γp × P)) (markers : List Interface)
      (inputs : List VC) (outCap : Nat) (outs : List O) (coll : C),
      pos + ns.length = states.length →
      (∀ cp ∈ conns, connResolvable E ord states.length cp.1) →
      ((inputs.length < (markerScan (ns.map Neuron.id) markers).1 ∨
        outCap < (markerScan (ns.map Neuron.id) markers).2.1) →
        ∀ r, stepGo E ord ns pos states conns markers inputs outCap outs coll ≠
          Except.ok r) ∧
      ((markerScan (ns.map Neuron.id) markers).1 ≤ inputs.length →
       (markerScan (ns.map Neuron.id) markers).2.1 ≤ outCap →
        ∃ r, stepGo E ord ns pos states conns markers inputs outCap outs coll =
          Except.ok r ∧
          r.2.length = outs.length + (markerScan (ns.map Neuron.id) markers).2.1 ∧
          r.1.length = states.length) := by
  intro ns
  induction ns with
  | nil =>
    intro pos states conns markers inputs outCap outs coll hlen _
    constructor
    · intro hbad r
      have hbad2 : inputs.length < 0 ∨ outCap < 0 := hbad
      exact absurd hbad2 (by omega)
    · intro _ _
      refine ⟨(states, outs), rfl, ?_, rfl⟩
      have h0 : (markerScan (([] : List (Neuron γa)).map Neuron.id) markers).2.1 = 0 := rfl
      rw [h0]
      rfl
  | cons nrn ns ih =>
    intro pos states conns markers inputs outCap outs coll hlen hres
    simp only [List.length_cons] at hlen
    have hpos : pos < states.length := by omega
    have hget := getAt_ok hpos
    have hm : markerScan ((nrn :: ns).map Neuron.id) markers =
        ((scanIn nrn.id markers).2 +
           (markerScan (ns.map Neuron.id) (scanOut nrn.id (scanIn nrn.id markers).1).1).1,
         (scanOut nrn.id (scanIn nrn.id markers).1).2 +
           (markerScan (ns.map Neuron.id) (scanOut nrn.id (scanIn nrn.id markers).1).1).2.1,
         (markerScan (ns.map Neuron.id)
           (scanOut nrn.id (scanIn nrn.id markers).1).1).2.2) := rfl
    rcases scanIn_cases nrn.id markers with h1 | ⟨m1, _, h1⟩
    · -- no Input marker consumed at this node
      have hdin : (scanIn nrn.id markers).2 = 0 := by rw [h1]
      have hIn : (markerScan ((nrn :: ns).map Neuron.id) markers).1 =
          0 + (markerScan (ns.map Neuron.id)
            (scanOut nrn.id (scanIn nrn.id markers).1).1).1 := by
        rw [hm]; dsimp only; rw [hdin]
      have hic : stepIn E (scanIn nrn.id markers).2 inputs coll =
          Except.ok (inputs, coll) := by rw [hdin]; rfl
      obtain ⟨rc, hp, hsub⟩ := procConns_ok E ord conns states nrn.id coll hres
      have hres2 : ∀ cp ∈ rc.1, connResolvable E ord
          ((states.set pos (E.activate (states.get ⟨pos, hpos⟩)
            (E.ccollect rc.2).2 nrn.activator_gene)).length) cp.1 := by
        rw [List.length_set]; exact fun cp hcp => hres cp (hsub cp hcp)
      have hlen2 : (pos + 1) + ns.length =
          (states.set pos (E.activate (states.get ⟨pos, hpos⟩)
            (E.ccollect rc.2).2 nrn.activator_gene)).length := by
        rw [List.length_set]; omega
      rcases scanOut_cases nrn.id (scanIn nrn.id markers).1 with h2 | ⟨m2, _, h2⟩
      · -- no Output marker either
        have hdout : (scanOut nrn.id (scanIn nrn.id markers).1).2 = 0 := by rw [h2]
        have hOut : (markerScan ((nrn :: ns).map Neuron.id) markers).2.1 =
            0 + (markerScan (ns.map Neuron.id)
              (scanOut nrn.id (scanIn nrn.id markers).1).1).2.1 := by
          rw [hm]; dsimp only; rw [hdout]
        have hoc : stepOut E (scanOut nrn.id (scanIn nrn.id markers).1).2 outCap outs
            (E.activate (states.get ⟨pos, hpos⟩) (E.ccollect rc.2).2 nrn.activator_gene) =
            Except.ok (outCap, outs) := by rw [hdout]; rfl
        have hstep := stepGo_cons_eq ns hic hp hget hoc
        obtain ⟨IH1, IH2⟩ := ih (pos + 1)
          (states.set pos (E.activate (states.get ⟨pos, hpos⟩)
            (E.ccollect rc.2).2 nrn.activator_gene))
          rc.1 (scanOut nrn.id (scanIn nrn.id markers).1).1 inputs outCap outs
          (E.cclear (E.ccollect rc.2).1) hlen2 hres2
        constructor
        · intro hbad r h
          rw [hstep] at h
          rw [hIn, hOut] at hbad
          exact IH1 (by omega) r h
        · intro hI hO
          rw [hIn] at hI
          rw [hOut] at hO
          obtain ⟨r, hr, hrl, hrs⟩ := IH2 (by omega) (by omega)
          refine ⟨r, ?_, ?_, ?_⟩
          · rw [hstep]; exact hr
          · rw [hOut, hrl]; omega
          · rw [hrs, List.length_set]
      · -- Output marker consumed
        have hdout : (scanOut nrn.id (scanIn nrn.id markers).1).2 = 1 := by rw [h2]
        have hOut : (markerScan ((nrn :: ns).map Neuron.id) markers).2.1 =
            1 + (markerScan (ns.map Neuron.id)
              (scanOut nrn.id (scanIn nrn.id markers).1).1).2.1 := by
          rw [hm]; dsimp only; rw [hdout]
        cases outCap with
        | zero =>
          have hocE : stepOut E (scanOut nrn.id (scanIn nrn.id markers).1).2 0 outs
              (E.activate (states.get ⟨pos, hpos⟩) (E.ccollect rc.2).2
                nrn.activator_gene) =
              Except.error "output buffer is not big enough" := by rw [hdout]; rfl
          constructor
          · intro _ r h
            rw [stepGo_cons_err_out ns hic hp hget hocE] at h
            exact Except.noConfusion h
          · intro _ hO
            rw [hOut] at hO
            exact absurd hO (by omega)
        | succ cap =>
          have hoc : stepOut E (scanOut nrn.id (scanIn nrn.id markers).1).2 (cap + 1) outs
              (E.activate (states.get ⟨pos, hpos⟩) (E.ccollect rc.2).2
                nrn.activator_gene) =
              Except.ok (cap, outs ++ [E.oconv (E.aoutput
                (E.activate (states.get ⟨pos, hpos⟩) (E.ccollect rc.2).2
                  nrn.activator_gene))]) := by rw [hdout]; rfl
          have hstep := stepGo_cons_eq ns hic hp hget hoc
          obtain ⟨IH1, IH2⟩ := ih (pos + 1)
            (states.set pos (E.activate (states.get ⟨pos, hpos⟩)
              (E.ccollect rc.2).2 nrn.activator_gene))
            rc.1 (scanOut nrn.id (scanIn nrn.id markers).1).1 inputs cap
            (outs ++ [E.oconv (E.aoutput (E.activate (states.get ⟨pos, hpos⟩)
              (E.ccollect rc.2).2 nrn.activator_gene))])
            (E.cclear (E.ccollect rc.2).1) hlen2 hres2
          constructor
          · intro hbad r h
            rw [hstep] at h
            rw [hIn, hOut] at hbad
            exact IH1 (by omega) r h
          · intro hI hO
            rw [hIn] at hI
            rw [hOut] at hO
            obtain ⟨r, hr, hrl, hrs⟩ := IH2 (by omega) (by omega)
            refine ⟨r, ?_, ?_, ?_⟩
            · rw [hstep]; exact hr
            · rw [hOut, hrl]
              simp only [List.length_append, List.length_cons, List.length_nil]
              omega
            · rw [hrs, List.length_set]
    · -- Input marker consumed at this node
      have hdin : (scanIn nrn.id markers).2 = 1 := by rw [h1]
      have hIn : (markerScan ((nrn :: ns).map Neuron.id) markers).1 =
          1 + (markerScan (ns.map Neuron.id)
            (scanOut nrn.id (scanIn nrn.id markers).1).1).1 := by
        rw [hm]; dsimp only; rw [hdin]
      cases inputs with
      | nil =>
        have hicE : stepIn E (scanIn nrn.id markers).2 [] coll =
            Except.error "input buffer is not big enough" := by rw [hdin]; rfl
        constructor
        · intro _ r h
          rw [stepGo_cons_err_in ns hicE] at h
          exact Except.noConfusion h
        · intro hI _
          rw [hIn] at hI
          simp only [List.length_nil] at hI
          exact absurd hI (by omega)
      | cons v vrest =>
        have hic : stepIn E (scanIn nrn.id markers).2 (v :: vrest) coll =
            Except.ok (vrest, E.cpush coll v) := by rw [hdin]; rfl
        obtain ⟨rc, hp, hsub⟩ := procConns_ok E ord conns states nrn.id
          (E.cpush coll v) hres
        have hres2 : ∀ cp ∈ rc.1, connResolvable E ord
            ((states.set pos (E.activate (states.get ⟨pos, hpos⟩)
              (E.ccollect rc.2).2 nrn.activator_gene)).length) cp.1 := by
          rw [List.length_set]; exact fun cp hcp => hres cp (hsub cp hcp)
        have hlen2 : (pos + 1) + ns.length =
            (states.set pos (E.activate (states.get ⟨pos, hpos⟩)
              (E.ccollect rc.2).2 nrn.activator_gene)).length := by
          rw [List.length_set]; omega
        rcases scanOut_cases nrn.id (scanIn nrn.id markers).1 with h2 | ⟨m2, _, h2⟩
        · have hdout : (scanOut nrn.id (scanIn nrn.id markers).1).2 = 0 := by rw [h2]
          have hOut : (markerScan ((nrn :: ns).map Neuron.id) markers).2.1 =
              0 + (markerScan (ns.map Neuron.id)
                (scanOut nrn.id (scanIn nrn.id markers).1).1).2.1 := by
            rw [hm]; dsimp only; rw [hdout]
          have hoc : stepOut E (scanOut nrn.id (scanIn nrn.id markers).1).2 outCap outs
              (E.activate (states.get ⟨pos, hpos⟩) (E.ccollect rc.2).2
                nrn.activator_gene) =
              Except.ok (outCap, outs) := by rw [hdout]; rfl
          have hstep := stepGo_cons_eq ns hic hp hget hoc
          obtain ⟨IH1, IH2⟩ := ih (pos + 1)
            (states.set pos (E.activate (states.get ⟨pos, hpos⟩)
              (E.ccollect rc.2).2 nrn.activator_gene))
            rc.1 (scanOut nrn.id (scanIn nrn.id markers).1).1 vrest outCap outs
            (E.cclear (E.ccollect rc.2).1) hlen2 hres2
          constructor
          · intro hbad r h
            rw [hstep] at h
            rw [hIn, hOut] at hbad
            simp only [List.length_cons] at hbad
            exact IH1 (by omega) r h
          · intro hI hO
            rw [hIn] at hI
            rw [hOut] at hO
            simp only [List.length_cons] at hI
            obtain ⟨r, hr, hrl, hrs⟩ := IH2 (by omega) (by omega)
            refine ⟨r, ?_, ?_, ?_⟩
            · rw [hstep]; exact hr
            · rw [hOut, hrl]; omega
            · rw [hrs, List.length_set]
        · have hdout : (scanOut nrn.id (scanIn nrn.id markers).1).2 = 1 := by rw [h2]
          have hOut : (markerScan ((nrn :: ns).map Neuron.id) markers).2.1 =
              1 + (markerScan (ns.map Neuron.id)
                (scanOut nrn.id (scanIn nrn.id markers).1).1).2.1 := by
            rw [hm]; dsimp only; rw [hdout]
          cases outCap with
          | zero =>
            have hocE : stepOut E (scanOut nrn.id (scanIn nrn.id markers).1).2 0 outs
                (E.activate (states.get ⟨pos, hpos⟩) (E.ccollect rc.2).2
                  nrn.activator_gene) =
                Except.error "output buffer is not big enough" := by rw [hdout]; rfl
            constructor
            · intro _ r h
              rw [stepGo_cons_err_out ns hic hp hget hocE] at h
              exact Except.noConfusion h
            · intro _ hO
              rw [hOut] at hO
              exact absurd hO (by omega)
          | succ cap =>
            have hoc : stepOut E (scanOut nrn.id (scanIn nrn.id markers).1).2 (cap + 1)
                outs (E.activate (states.get ⟨pos, hpos⟩) (E.ccollect rc.2).2
                  nrn.activator_gene) =
                Except.ok (cap, outs ++ [E.oconv (E.aoutput
                  (E.activate (states.get ⟨pos, hpos⟩) (E.ccollect rc.2).2
                    nrn.activator_gene))]) := by rw [hdout]; rfl
            have hstep := stepGo_cons_eq ns hic hp hget hoc
            obtain ⟨IH1, IH2⟩ := ih (pos + 1)
              (states.set pos (E.activate (states.get ⟨pos, hpos⟩)
                (E.ccollect rc.2).2 nrn.activator_gene))
              rc.1 (scanOut nrn.id (scanIn nrn.id markers).1).1 vrest cap
              (outs ++ [E.oconv (E.aoutput (E.activate (states.get ⟨pos, hpos⟩)
                (E.ccollect rc.2).2 nrn.activator_gene))])
              (E.cclear (E.ccollect rc.2).1) hlen2 hres2
            constructor
            · intro hbad r h
              rw [hstep] at h
              rw [hIn, hOut] at hbad
              simp only [List.length_cons] at hbad
              exact IH1 (by omega) r h
            · intro hI hO
              rw [hIn] at hI
              rw [hOut] at hO
              simp only [List.length_cons] at hI
              obtain ⟨r, hr, hrl, hrs⟩ := IH2 (by omega) (by omega)
              refine ⟨r, ?_, ?_, ?_⟩
              · rw [hstep]; exact hr
              · rw [hOut, hrl]
                simp only [List.length_append, List.length_cons, List.length_nil]
                omega
              · rw [hrs, List.length_set]

/-- C7: what `State::step` actually enforces about buffer lengths.  A
run is never `ok` when the input list is shorter than the number of
`Input` markers consumed or the output capacity smaller than the number
of `Output` markers consumed (the `.expect(...)` panics); with enough of
both, the pass succeeds and writes exactly one output value per
consumed `Output` marker.  When the scan consumes the body's whole
marker list, the consumed counts are precisely the declared
sensor/action counts.  Consequently a SURPLUS of inputs or output
capacity is silently ignored — the unconsumed entries are neither
checked, truncated nor padded, contradicting the claim's
"both directions of each mismatch" part. -/
theorem C7_step_buffer_contract {A P C VA VO VC O γa γp : Type}
    (E : Engine A P C VA VO VC O γa γp) (neurons : List (Neuron γa))
    (conns : List (Connection γp)) (ord : NeuronOrder) (states : List A)
    (connStates : List P) (markers : List Interface) (inputs : List VC)
    (outCap : Nat) (coll : C)
    (hlen : neurons.length = states.length)
    (hres : ∀ cp ∈ conns.zip connStates, connResolvable E ord states.length cp.1) :
    ((inputs.length < (markerScan (neurons.map Neuron.id) markers).1 ∨
      outCap < (markerScan (neurons.map Neuron.id) markers).2.1) →
      ∀ r, step E neurons conns ord states connStates markers inputs outCap coll ≠
        Except.ok r) ∧
    ((markerScan (neurons.map Neuron.id) markers).1 ≤ inputs.length →
     (markerScan (neurons.map Neuron.id) markers).2.1 ≤ outCap →
      ∃ r, step E neurons conns ord states connStates markers inputs outCap coll =
        Except.ok r ∧
        r.2.length = (markerScan (neurons.map Neuron.id) markers).2.1 ∧
        r.1.length = states.length) ∧
    ((markerScan (neurons.map Neuron.id) markers).2.2 = [] →
      (markerScan (neurons.map Neuron.id) markers).1 =
        (markers.filter isInputM).length ∧
      (markerScan (neurons.map Neuron.id) markers).2.1 =
        (markers.filter isOutputM).length) := by
  have h := stepGo_contract E ord neurons 0 states (conns.zip connStates) markers
    inputs outCap [] coll (by omega) hres
  refine ⟨h.1, ?_, ?_⟩
  · intro hI hO
    obtain ⟨r, hr, hrl, hrs⟩ := h.2 hI hO
    refine ⟨r, hr, ?_, hrs⟩
    rw [hrl]
    simp only [List.length_nil]
    omega
  · intro hleft
    have ht := markerScan_total (neurons.map Neuron.id) markers
    rw [hleft] at ht
    simp only [List.filter_nil, List.length_nil] at ht
    exact ⟨by omega, by omega⟩

/-- The counterexample to C7 as frozen: a 1-node body declaring one
sensor and one action, handed a surplus input (2 values for 1 declared
sensor) and a surplus output buffer (capacity 2 for 1 declared action),
steps successfully — the surplus input value 7 is silently ignored and
exactly one output slot is written (no padding): the result is
`ok [5]`, not a fatal error. -/
theorem C7_surplus_counterexample :
    (step testEngine [⟨0, 1⟩] ([] : List (Connection ConnectionGene))
        ⟨[some 0], 1, some 0⟩ [(0 : Int)] ([] : List Unit)
        [Interface.input 0, Interface.output 0]
        [(SignalKind.data, 5), (SignalKind.data, 7)] 2
        ((0, 0) : Int × Int)).map (fun r => r.2) =
      Except.ok [5] := by rfl

/-- Witness for C7 at a concrete 1-node body: with no inputs supplied
the step is never `ok` (shortage is fatal), and with exactly one input
it succeeds writing one output. -/
theorem C7_step_buffer_contract_witness :
    (∀ r, step testEngine [⟨0, 1⟩] ([] : List (Connection ConnectionGene))
        ⟨[some 0], 1, some 0⟩ [(0 : Int)] ([] : List Unit)
        [Interface.input 0, Interface.output 0] ([] : List (SignalKind × Int)) 1
        ((0, 0) : Int × Int) ≠ Except.ok r) ∧
    (∃ r, step testEngine [⟨0, 1⟩] ([] : List (Connection ConnectionGene))
        ⟨[some 0], 1, some 0⟩ [(0 : Int)] ([] : List Unit)
        [Interface.input 0, Interface.output 0] [(SignalKind.data, 3)] 1
        ((0, 0) : Int × Int) = Except.ok r ∧ r.2.length = 1) := by
  constructor
  · exact (C7_step_buffer_contract testEngine [⟨0, 1⟩] [] ⟨[some 0], 1, some 0⟩ [0] []
      [Interface.input 0, Interface.output 0] [] 1 (0, 0) rfl
      (fun cp hcp => absurd hcp (List.not_mem_nil cp))).1 (by decide)
  · obtain ⟨r, hr, hrl, _⟩ := (C7_step_buffer_contract testEngine [⟨0, 1⟩] []
      ⟨[some 0], 1, some 0⟩ [0] [] [Interface.input 0, Interface.output 0]
      [(SignalKind.data, 3)] 1 (0, 0) rfl
      (fun cp hcp => absurd hcp (List.not_mem_nil cp))).2.1 (by decide) (by decide)
    refine ⟨r, hr, ?_⟩
    rw [hrl]
    decide

/-- A `Buffer<T>` handed out by the arena: byte offset of its first
element in the arena's backing vector, element count, and
`size_of::<T>()`.  The model addresses buffers by their offset from the
backing vector's start. -/
structure BufferRef where
  start : Nat
  len : Nat
  sz : Nat
deriving Repr, DecidableEq

/-- `Arena(Vec<u8>)`: the byte store plus the (fixed) numeric address of
the backing vector, which `next_aligned` reads via `as_ptr()`. -/
structure ArenaM where
  bytes : List Nat
  base : Nat
deriving Repr, DecidableEq

/-- `self.0.len() + align_of::<T>() - self.0.as_ptr() as usize % align_of::<T>()`
(with its FIXME'd full-`align` gap when the base pointer is aligned). -/
def ArenaM.next_aligned (a : ArenaM) (al : Nat) : Nat :=
  a.bytes.length + al - a.base % al

/-- `Vec::resize(n, 0)`: truncate to `n` or grow with zeroes. -/
def ArenaM.resizeTo (a : ArenaM) (n : Nat) : ArenaM :=
  ⟨a.bytes.take n ++ List.replicate (n - a.bytes.length) 0, a.base⟩

/-- Byte-wise `ptr::copy_nonoverlapping(v, bs + off, v.len())`. -/
def writeBytes (bs : List Nat) (off : Nat) (v : List Nat) : List Nat :=
  bs.take off ++ v ++ bs.drop (off + v.length)

/-- The `sz` bytes of slot `i` of buffer `r`. -/
def readSlot (bs : List Nat) (r : BufferRef) (i : Nat) : List Nat :=
  (bs.drop (r.start + r.sz * i)).take r.sz

/-- `buffer[i] = value` as a byte write of the encoded value. -/
def writeSlot (bs : List Nat) (r : BufferRef) (i : Nat) (v : List Nat) : List Nat :=
  writeBytes bs (r.start + r.sz * i) v

/-- `Arena::alloc_slice_with::<T>`: reserve `size` slots of `sz` bytes
from the next `al`-aligned offset, zero-fill, then `ptr::write` the
byte encoding of `default()` into every slot. -/
def ArenaM.alloc_slice_with (a : ArenaM) (sz al size : Nat) (default : List Nat) :
    ArenaM × BufferRef :=
  let start := a.next_aligned al
  let a2 := a.resizeTo (start + sz * size)
  let bs := (List.range size).foldl (fun b k => writeBytes b (start + sz * k) default) a2.bytes
  (⟨bs, a.base⟩, ⟨start, size, sz⟩)

/-- `Arena::move_into`: copy the buffer's `items.len() * size_of::<T>()`
bytes from the source store to the next aligned offset of this arena,
returning a buffer of the same element count. -/
def ArenaM.move_into (dest : ArenaM) (srcBytes : List Nat) (r : BufferRef) (al : Nat) :
    ArenaM × BufferRef :=
  let size := r.len * r.sz
  let start := dest.next_aligned al
  let d2 := dest.resizeTo (start + size)
  (⟨writeBytes d2.bytes start ((srcBytes.drop r.start).take size), dest.base⟩,
   ⟨start, r.len, r.sz⟩)

/-- `Arena::free_all`: `self.0.clear()`. -/
def ArenaM.free_all (a : ArenaM) : ArenaM := ⟨[], a.base⟩

lemma drop_append_left {α : Type _} {l1 l2 : List α} {n : Nat} (h : l1.length = n) :
    (l1 ++ l2).drop n = l2 := by
  subst h
  exact List.drop_left ..

lemma take_append_left {α : Type _} {l1 l2 : List α} {n : Nat} (h : l1.length = n) :
    (l1 ++ l2).take n = l1 := by
  subst h
  exact List.take_left ..

lemma drop_append_left_off {α : Type _} {l1 l2 : List α} {n m : Nat} (h : l1.length = n) :
    (l1 ++ l2).drop (n + m) = l2.drop m := by
  subst h
  exact List.drop_append ..

lemma writeBytes_length {bs v : List Nat} {off : Nat} (h : off + v.length ≤ bs.length) :
    (writeBytes bs off v).length = bs.length := by
  rw [writeBytes, List.length_append, List.length_append, List.length_take,
    List.length_drop]
  omega

lemma writeBytes_take_eq {bs v : List Nat} {off n : Nat} (hno : n ≤ off)
    (hnb : n ≤ bs.length) :
    (writeBytes bs off v).take n = bs.take n := by
  rw [writeBytes,
    List.take_append_of_le_length (by rw [List.length_append, List.length_take]; omega),
    List.take_append_of_le_length (by rw [List.length_take]; omega),
    List.take_take, Nat.min_eq_left hno]

lemma read_of_take_eq {b b' : List Nat} {n pos k : Nat} (h : b.take n = b'.take n)
    (hk : pos + k ≤ n) : (b.drop pos).take k = (b'.drop pos).take k := by
  have e1 : ∀ c : List Nat, ((c.take n).drop pos).take k = (c.drop pos).take k := by
    intro c
    rw [List.drop_take, List.take_take, Nat.min_eq_left (by omega)]
  calc (b.drop pos).take k = ((b.take n).drop pos).take k := (e1 b).symm
    _ = ((b'.take n).drop pos).take k := by rw [h]
    _ = (b'.drop pos).take k := e1 b'

lemma resizeTo_take_eq {a : ArenaM} {m n : Nat} (hm : n ≤ m) (hn : n ≤ a.bytes.length) :
    (a.resizeTo m).bytes.take n = a.bytes.take n := by
  show (a.bytes.take m ++ List.replicate (m - a.bytes.length) 0).take n = _
  rw [List.take_append_of_le_length (by rw [List.length_take]; omega),
    List.take_take, Nat.min_eq_left hm]

lemma resizeTo_length {a : ArenaM} {m : Nat} (hm : a.bytes.length ≤ m) :
    (a.resizeTo m).bytes.length = m := by
  show (a.bytes.take m ++ List.replicate (m - a.bytes.length) 0).length = m
  rw [List.length_append, List.length_take, List.length_replicate]
  omega

lemma next_aligned_ge {a : ArenaM} {al : Nat} (h : 1 ≤ al) :
    a.bytes.length + 1 ≤ a.next_aligned al := by
  have h2 := Nat.mod_lt a.base (show 0 < al by omega)
  show _ ≤ a.bytes.length + al - a.base % al
  omega

lemma readSlot_writeSlot_self {bs v : List Nat} {r : BufferRef} {i : Nat}
    (hv : v.length = r.sz) (hin : r.start + r.sz * i + r.sz ≤ bs.length) :
    readSlot (writeSlot bs r i v) r i = v := by
  rw [readSlot, writeSlot, writeBytes, List.append_assoc,
    drop_append_left (by rw [List.length_take]; omega), take_append_left hv]

lemma read_writeBytes_disjoint_lt {bs v : List Nat} {off pos k : Nat}
    (h : pos + k ≤ off) (hoff : off ≤ bs.length) :
    ((writeBytes bs off v).drop pos).take k = (bs.drop pos).take k :=
  read_of_take_eq (writeBytes_take_eq (Nat.le_refl off) hoff) h

lemma read_writeBytes_disjoint_gt {bs v : List Nat} {off pos k : Nat}
    (h : off + v.length ≤ pos) (hoff : off ≤ bs.length) :
    ((writeBytes bs off v).drop pos).take k = (bs.drop pos).take k := by
  have hL : (bs.take off ++ v).length = off + v.length := by
    rw [List.length_append, List.length_take]
    omega
  have hpos : pos = (off + v.length) + (pos - (off + v.length)) := by omega
  rw [writeBytes]
  nth_rewrite 1 [hpos]
  rw [drop_append_left_off hL, List.drop_drop]
  have he : (off + v.length) + (pos - (off + v.length)) = pos := by omega
  rw [he]

lemma readSlot_writeSlot_other {bs v : List Nat} {r : BufferRef} {i j : Nat}
    (hv : v.length = r.sz) (hij : j ≠ i)
    (hjb : r.start + r.sz * j + r.sz ≤ bs.length) :
    readSlot (writeSlot bs r j v) r i = readSlot bs r i := by
  rw [readSlot, writeSlot, readSlot]
  rcases Nat.lt_or_ge j i with hj | hj
  · apply read_writeBytes_disjoint_gt
    · rw [hv]
      have h2 : r.sz * (j + 1) ≤ r.sz * i := Nat.mul_le_mul_left _ hj
      rw [Nat.mul_succ] at h2
      omega
    · omega
  · have hj2 : i < j := by omega
    apply read_writeBytes_disjoint_lt
    · have h2 : r.sz * (i + 1) ≤ r.sz * j := Nat.mul_le_mul_left _ hj2
      rw [Nat.mul_succ] at h2
      omega
    · omega

lemma foldl_writeBytes_take_eq (v : List Nat) (start sz n : Nat) (hn : n ≤ start) :
    ∀ (ks : List Nat) (bs : List Nat), n ≤ bs.length →
      ((ks.foldl (fun b k => writeBytes b (start + sz * k) v) bs).take n = bs.take n ∧
       n ≤ (ks.foldl (fun b k => writeBytes b (start + sz * k) v) bs).length) := by
  intro ks
  induction ks with
  | nil => intro bs h; exact ⟨rfl, h⟩
  | cons k ks ih =>
    intro bs h
    have hw : n ≤ (writeBytes bs (start + sz * k) v).length := by
      rw [writeBytes, List.length_append, List.length_append, List.length_take,
        List.length_drop]
      omega
    obtain ⟨h1, h2⟩ := ih (writeBytes bs (start + sz * k) v) hw
    rw [List.foldl_cons]
    exact ⟨h1.trans (writeBytes_take_eq (by omega) h), h2⟩

/-- A later allocation from the same arena only appends (past the
aligned offset), never touching the first `n` bytes already in use. -/
lemma alloc_preserves_take {a : ArenaM} {sz al size n : Nat} {default : List Nat}
    (hal : 1 ≤ al) (hn : n ≤ a.bytes.length) :
    ((a.alloc_slice_with sz al size default).1).bytes.take n = a.bytes.take n := by
  have hst : a.bytes.length + 1 ≤ a.next_aligned al := next_aligned_ge hal
  have hr2 : (a.resizeTo (a.next_aligned al + sz * size)).bytes.length =
      a.next_aligned al + sz * size := resizeTo_length (by omega)
  have hr1 : (a.resizeTo (a.next_aligned al + sz * size)).bytes.take n =
      a.bytes.take n := resizeTo_take_eq (by omega) hn
  have hf := foldl_writeBytes_take_eq default (a.next_aligned al) sz n (by omega)
    (List.range size) (a.resizeTo (a.next_aligned al + sz * size)).bytes
    (by rw [hr2]; omega)
  show ((List.range size).foldl
      (fun b k => writeBytes b (a.next_aligned al + sz * k) default)
      (a.resizeTo (a.next_aligned al + sz * size)).bytes).take n = a.bytes.take n
  rw [hf.1, hr1]

lemma readSlot_alloc_eq {a : ArenaM} {r : BufferRef} {i sz2 al2 size2 : Nat}
    {default2 : List Nat} (hal : 1 ≤ al2)
    (hib : r.start + r.sz * i + r.sz ≤ a.bytes.length) :
    readSlot ((a.alloc_slice_with sz2 al2 size2 default2).1).bytes r i =
      readSlot a.bytes r i := by
  rw [readSlot, readSlot]
  exact read_of_take_eq (alloc_preserves_take hal (Nat.le_refl _)) hib

/-- `move_into` returns a buffer with the same element count and size
whose every slot reads back the source slot's bytes. -/
lemma move_into_spec {dest : ArenaM} {srcBytes : List Nat} {r : BufferRef} {al : Nat}
    (hal : 1 ≤ al) (hsb : r.start + r.len * r.sz ≤ srcBytes.length) :
    (dest.move_into srcBytes r al).2 = ⟨dest.next_aligned al, r.len, r.sz⟩ ∧
    ∀ i, i < r.len →
      readSlot (dest.move_into srcBytes r al).1.bytes (dest.move_into srcBytes r al).2 i =
        readSlot srcBytes r i := by
  refine ⟨rfl, ?_⟩
  intro i hi
  have hng : dest.bytes.length + 1 ≤ dest.next_aligned al := next_aligned_ge hal
  have hDlen : (dest.resizeTo (dest.next_aligned al + r.len * r.sz)).bytes.length =
      dest.next_aligned al + r.len * r.sz := resizeTo_length (by omega)
  have hSlen : ((srcBytes.drop r.start).take (r.len * r.sz)).length = r.len * r.sz := by
    rw [List.length_take, List.length_drop]
    omega
  show ((writeBytes (dest.resizeTo (dest.next_aligned al + r.len * r.sz)).bytes
      (dest.next_aligned al) ((srcBytes.drop r.start).take (r.len * r.sz))).drop
      (dest.next_aligned al + r.sz * i)).take r.sz =
    (srcBytes.drop (r.start + r.sz * i)).take r.sz
  rw [writeBytes]
  have hdrop0 : (dest.resizeTo (dest.next_aligned al + r.len * r.sz)).bytes.drop
      (dest.next_aligned al + ((srcBytes.drop r.start).take (r.len * r.sz)).length) =
      [] := by
    apply List.drop_eq_nil_of_le
    rw [hDlen, hSlen]
  rw [hdrop0, List.append_nil,
    drop_append_left_off (by rw [List.length_take]; omega),
    List.drop_take, List.drop_drop, List.take_take]
  have h2 : r.sz * (i + 1) ≤ r.sz * r.len := Nat.mul_le_mul_left _ hi
  rw [Nat.mul_succ] at h2
  have hc : r.len * r.sz = r.sz * r.len := Nat.mul_comm ..
  rw [Nat.min_eq_left (by omega)]

/-- C9: a value (byte encoding `v`) written into slot `i` of an
arena-allocated buffer reads back unchanged (1), survives a write to
any other slot `j ≠ i` of the same buffer (2) and any later
`alloc_slice_with` on the same arena, which only appends (3); and
`move_into` to another arena returns a buffer of the same element count
and size whose slot `i` still reads `v`, with every other slot also a
bytewise copy of the source (4). -/
theorem C9_arena_buffer_contract (a : ArenaM) (r : BufferRef) (i : Nat) (v : List Nat)
    (hv : v.length = r.sz) (hib : r.start + r.sz * i + r.sz ≤ a.bytes.length) :
    readSlot (writeSlot a.bytes r i v) r i = v ∧
    (∀ j w, w.length = r.sz → j ≠ i → r.start + r.sz * j + r.sz ≤ a.bytes.length →
      readSlot (writeSlot (writeSlot a.bytes r i v) r j w) r i = v) ∧
    (∀ sz2 al2 size2 default2, 1 ≤ al2 →
      readSlot ((ArenaM.alloc_slice_with ⟨writeSlot a.bytes r i v, a.base⟩ sz2 al2 size2
        default2).1).bytes r i = v) ∧
    (∀ dest al, 1 ≤ al → r.start + r.len * r.sz ≤ a.bytes.length → i < r.len →
      (ArenaM.move_into dest (writeSlot a.bytes r i v) r al).2.len = r.len ∧
      (ArenaM.move_into dest (writeSlot a.bytes r i v) r al).2.sz = r.sz ∧
      readSlot (ArenaM.move_into dest (writeSlot a.bytes r i v) r al).1.bytes
        (ArenaM.move_into dest (writeSlot a.bytes r i v) r al).2 i = v) := by
  have hwlen : (writeSlot a.bytes r i v).length = a.bytes.length := by
    rw [writeSlot]
    exact writeBytes_length (by omega)
  have h1 : readSlot (writeSlot a.bytes r i v) r i = v := readSlot_writeSlot_self hv hib
  refine ⟨h1, ?_, ?_, ?_⟩
  · intro j w hw hji hjb
    rw [readSlot_writeSlot_other hw hji (by rw [hwlen]; omega), h1]
  · intro sz2 al2 size2 default2 hal
    have he : readSlot ((ArenaM.alloc_slice_with ⟨writeSlot a.bytes r i v, a.base⟩
        sz2 al2 size2 default2).1).bytes r i =
        readSlot (ArenaM.mk (writeSlot a.bytes r i v) a.base).bytes r i :=
      readSlot_alloc_eq hal (by show _ ≤ (writeSlot a.bytes r i v).length
                                rw [hwlen]; omega)
    rw [he]
    exact h1
  · intro dest al hal hsb hilen
    have hms : (dest.move_into (writeSlot a.bytes r i v) r al).2 =
        ⟨dest.next_aligned al, r.len, r.sz⟩ ∧
        ∀ k, k < r.len →
          readSlot (dest.move_into (writeSlot a.bytes r i v) r al).1.bytes
            (dest.move_into (writeSlot a.bytes r i v) r al).2 k =
            readSlot (writeSlot a.bytes r i v) r k :=
      move_into_spec hal (by rw [hwlen]; omega)
    obtain ⟨hr2, hread⟩ := hms
    refine ⟨by rw [hr2], by rw [hr2], ?_⟩
    rw [hread i hilen, h1]

/-- Witness for C9 on a 6-byte arena holding a 2-element buffer of
2-byte slots at offset 1: the bytes [7, 8] written into slot 0 read
back intact, survive a later allocation, and are copied by migration. -/
theorem C9_arena_buffer_contract_witness :
    ([7, 8] : List Nat).length = (⟨1, 2, 2⟩ : BufferRef).sz ∧
    readSlot (writeSlot [0, 0, 0, 0, 0, 0] ⟨1, 2, 2⟩ 0 [7, 8]) ⟨1, 2, 2⟩ 0 = [7, 8] ∧
    readSlot (writeSlot (writeSlot [0, 0, 0, 0, 0, 0] ⟨1, 2, 2⟩ 0 [7, 8]) ⟨1, 2, 2⟩ 1
      [4, 5]) ⟨1, 2, 2⟩ 0 = [7, 8] ∧
    readSlot ((ArenaM.alloc_slice_with ⟨writeSlot [0, 0, 0, 0, 0, 0] ⟨1, 2, 2⟩ 0 [7, 8], 0⟩
      1 1 3 [9]).1).bytes ⟨1, 2, 2⟩ 0 = [7, 8] ∧
    readSlot (ArenaM.move_into ⟨[], 0⟩ (writeSlot [0, 0, 0, 0, 0, 0] ⟨1, 2, 2⟩ 0 [7, 8])
      ⟨1, 2, 2⟩ 2).1.bytes ((ArenaM.move_into ⟨[], 0⟩ (writeSlot [0, 0, 0, 0, 0, 0]
      ⟨1, 2, 2⟩ 0 [7, 8]) ⟨1, 2, 2⟩ 2).2) 0 = [7, 8] := by
  have h := C9_arena_buffer_contract ⟨[0, 0, 0, 0, 0, 0], 0⟩ ⟨1, 2, 2⟩ 0 [7, 8]
    (by decide) (by decide)
  exact ⟨by decide, h.1, h.2.1 1 [4, 5] (by decide) (by decide) (by decide),
    h.2.2.1 1 1 3 [9] (by decide),
    (h.2.2.2 ⟨[], 0⟩ 2 (by decide) (by decide) (by decide)).2.2⟩

/-- `Vec::swap_remove(i)`: replace element `i` with the last element and
pop; `none` models the index-out-of-bounds panic. -/
def swapRemove {α : Type _} (l : List α) (i : Nat) : Option (List α) :=
  match l.getLast? with
  | none => none
  | some x => if i < l.length then some ((l.set i x).dropLast) else none

lemma swapRemove_some {α : Type _} {l : List α} {i : Nat} (h : i < l.length) :
    ∃ l', swapRemove l i = some l' ∧ l'.length = l.length - 1 := by
  have hne : l ≠ [] := by
    intro he
    rw [he] at h
    simp at h
  obtain ⟨x, hx⟩ := Option.isSome_iff_exists.mp (List.getLast?_isSome.mpr hne)
  refine ⟨(l.set i x).dropLast, ?_, ?_⟩
  · rw [swapRemove, hx]
    show (if i < l.length then some ((l.set i x).dropLast) else none) = _
    rw [if_pos h]
  · rw [List.length_dropLast, List.length_set]

/-- A drained `Command<C>`: `Spawn` carries the constructed agent and
its initial state (the model abstracts `Agent::spawn`/`create_state`),
`Kill` the index passed to both `swap_remove`s. -/
inductive CommandM (AG ST : Type) where
  | spawn (agent : AG) (st : ST)
  | kill (index : Nat)

def CommandM.isSpawn {AG ST : Type} : CommandM AG ST → Bool
  | CommandM.spawn _ _ => true
  | CommandM.kill _ => false

/-- The two parallel vectors of `World`: `agents` and the per-agent
`state`. -/
structure WorldM (AG ST : Type) where
  agents : List AG
  state : List ST

/-- `World::new`: both vectors empty. -/
def WorldM.new (AG ST : Type) : WorldM AG ST := ⟨[], []⟩

/-- `World::initialize`: extend `agents` by the populated batch, then
extend `state` by one created state per NEW agent (`self.agents[len..]`). -/
def WorldM.init_world {AG ST : Type} (w : WorldM AG ST) (newAgents : List AG)
    (mkState : AG → ST) : WorldM AG ST :=
  ⟨w.agents ++ newAgents, w.state ++ newAgents.map mkState⟩

/-- The `while i < self.agents.len()` loop of `World::step`: read the
agent at `i` and its state (`state.get_unchecked_mut(i)`, modelled as a
checked get whose miss is `none`), then either retire the agent —
`swap_remove` on BOTH vectors at `i` — or advance `i`.  `verdict` is
whether `perform_actions` returned a final score.  Fuel-based; the fuel
never runs out when it exceeds `agents.length - i`. -/
def stepLoop {AG ST : Type} (verdict : AG → ST → Bool) :
    Nat → Nat → List AG → List ST → Option (List AG × List ST)
  | 0, _, _, _ => none
  | fuel + 1, i, agents, state =>
    if h : i < agents.length then
      match state.get? i with
      | none => none
      | some st =>
        match verdict (agents.get ⟨i, h⟩) st with
        | true =>
          match swapRemove agents i, swapRemove state i with
          | some ags, some sts => stepLoop verdict fuel i ags sts
          | _, _ => none
        | false => stepLoop verdict fuel (i + 1) agents state
    else some (agents, state)

/-- The `for cmd in self.command_buffer.drain(..)` loop: `Spawn` pushes
onto both vectors, `Kill(index)` `swap_remove`s from both. -/
def runCommands {AG ST : Type} :
    List (CommandM AG ST) → List AG × List ST → Option (List AG × List ST)
  | [], p => some p
  | CommandM.spawn ag st :: rest, p => runCommands rest (p.1 ++ [ag], p.2 ++ [st])
  | CommandM.kill idx :: rest, p =>
    match swapRemove p.1 idx, swapRemove p.2 idx with
    | some a3, some s3 => runCommands rest (a3, s3)
    | _, _ => none

/-- `World::step`: the agent loop followed by the command drain. -/
def WorldM.step {AG ST : Type} (w : WorldM AG ST) (verdict : AG → ST → Bool)
    (cmds : List (CommandM AG ST)) : Option (WorldM AG ST) :=
  match stepLoop verdict (w.agents.length + 1) 0 w.agents w.state with
  | none => none
  | some p =>
    match runCommands cmds p with
    | none => none
    | some q => some ⟨q.1, q.2⟩

lemma swapRemove_length {α : Type _} {l l' : List α} {i : Nat}
    (h : swapRemove l i = some l') : l'.length = l.length - 1 := by
  rw [swapRemove] at h
  cases hx : l.getLast? with
  | none =>
    rw [hx] at h
    exact Option.noConfusion h
  | some x =>
    rw [hx] at h
    replace h : (if i < l.length then some ((l.set i x).dropLast) else none) =
      some l' := h
    by_cases hi : i < l.length
    · rw [if_pos hi] at h
      have h2 : (l.set i x).dropLast = l' := Option.some.inj h
      rw [← h2, List.length_dropLast, List.length_set]
    · rw [if_neg hi] at h
      exact Option.noConfusion h

/-- With the two vectors of equal length and enough fuel, the agent
loop always completes: every `state` access made with an agent index
hits (the `none` miss branch is never taken), and the result vectors
are again of equal length. -/
lemma stepLoop_ok {AG ST : Type} (verdict : AG → ST → Bool) :
    ∀ (fuel i : Nat) (agents : List AG) (state : List ST),
      agents.length = state.length → agents.length - i < fuel →
      ∃ p, stepLoop verdict fuel i agents state = some p ∧
        p.1.length = p.2.length := by
  intro fuel
  induction fuel with
  | zero =>
    intro i agents state _ hf
    exact absurd hf (by omega)
  | succ fuel ih =>
    intro i agents state hinv hf
    by_cases h : i < agents.length
    · have hst : i < state.length := by omega
      have hget : state.get? i = some (state.get ⟨i, hst⟩) := List.get?_eq_get hst
      cases hv : verdict (agents.get ⟨i, h⟩) (state.get ⟨i, hst⟩) with
      | true =>
        obtain ⟨ags, hsr1, hlen1⟩ := swapRemove_some h
        obtain ⟨sts, hsr2, hlen2⟩ := swapRemove_some hst
        obtain ⟨p, hp, hpl⟩ := ih i ags sts (by omega) (by omega)
        refine ⟨p, ?_, hpl⟩
        rw [stepLoop, dif_pos h, hget]
        show (match verdict (agents.get ⟨i, h⟩) (state.get ⟨i, hst⟩) with
          | true =>
            match swapRemove agents i, swapRemove state i with
            | some ags, some sts => stepLoop verdict fuel i ags sts
            | _, _ => none
          | false => stepLoop verdict fuel (i + 1) agents state) = some p
        rw [hv, hsr1, hsr2]
        exact hp
      | false =>
        obtain ⟨p, hp, hpl⟩ := ih (i + 1) agents state hinv (by omega)
        refine ⟨p, ?_, hpl⟩
        rw [stepLoop, dif_pos h, hget]
        show (match verdict (agents.get ⟨i, h⟩) (state.get ⟨i, hst⟩) with
          | true =>
            match swapRemove agents i, swapRemove state i with
            | some ags, some sts => stepLoop verdict fuel i ags sts
            | _, _ => none
          | false => stepLoop verdict fuel (i + 1) agents state) = some p
        rw [hv]
        exact hp
    · refine ⟨(agents, state), ?_, hinv⟩
      rw [stepLoop, dif_neg h]

/-- The command drain keeps the two vectors the same length (every push
and `swap_remove` is mirrored), and never aborts when all commands are
spawns. -/
lemma runCommands_inv {AG ST : Type} :
    ∀ (cmds : List (CommandM AG ST)) (p : List AG × List ST),
      p.1.length = p.2.length →
      (∀ q, runCommands cmds p = some q → q.1.length = q.2.length) ∧
      ((∀ c ∈ cmds, c.isSpawn = true) →
        ∃ q, runCommands cmds p = some q ∧ q.1.length = q.2.length) := by
  intro cmds
  induction cmds with
  | nil =>
    intro p hp
    refine ⟨?_, fun _ => ⟨p, rfl, hp⟩⟩
    intro q hq
    have hq2 : p = q := Option.some.inj hq
    rw [← hq2]
    exact hp
  | cons c rest ih =>
    intro p hp
    cases c with
    | spawn ag st =>
      have hlen : (p.1 ++ [ag]).length = (p.2 ++ [st]).length := by
        simp [hp]
      obtain ⟨ih1, ih2⟩ := ih (p.1 ++ [ag], p.2 ++ [st]) hlen
      refine ⟨fun q hq => ih1 q hq, ?_⟩
      intro hs
      obtain ⟨q, hq, hql⟩ := ih2 (fun c hc => hs c (List.mem_cons_of_mem _ hc))
      exact ⟨q, hq, hql⟩
    | kill idx =>
      constructor
      · intro q hq
        have hq2 : (match swapRemove p.1 idx, swapRemove p.2 idx with
          | some a3, some s3 => runCommands rest (a3, s3)
          | _, _ => none) = some q := hq
        cases hs1 : swapRemove p.1 idx with
        | none =>
          rw [hs1] at hq2
          exact Option.noConfusion hq2
        | some a3 =>
          cases hs2 : swapRemove p.2 idx with
          | none =>
            rw [hs1, hs2] at hq2
            exact Option.noConfusion hq2
          | some s3 =>
            rw [hs1, hs2] at hq2
            have ha3 := swapRemove_length hs1
            have hs3 := swapRemove_length hs2
            have hlen2 : a3.length = s3.length := by rw [ha3, hs3, hp]
            exact (ih (a3, s3) hlen2).1 q hq2
      · intro hs
        have h1 := hs (CommandM.kill idx) (List.mem_cons_self _ _)
        simp [CommandM.isSpawn] at h1

/-- C10: `World` keeps its two parallel vectors (`agents` and the
per-agent `state`) the same length: `new` starts both empty,
`initialize` appends one created state per populated agent, the agent
loop of `step` `swap_remove`s both vectors together — so the state
access by agent index inside the loop is never out of bounds and the
loop always completes — and the command drain pushes to or
`swap_remove`s from both together, so any completed `step` preserves
the invariant (and completes whenever all commands are spawns). -/
theorem C10_world_parallel_vectors {AG ST : Type} (w : WorldM AG ST)
    (verdict : AG → ST → Bool) (cmds : List (CommandM AG ST))
    (newAgents : List AG) (mkState : AG → ST)
    (hinv : w.agents.length = w.state.length) :
    (WorldM.new AG ST).agents.length = (WorldM.new AG ST).state.length ∧
    (WorldM.init_world w newAgents mkState).agents.length =
      (WorldM.init_world w newAgents mkState).state.length ∧
    (∃ p, stepLoop verdict (w.agents.length + 1) 0 w.agents w.state = some p ∧
      p.1.length = p.2.length) ∧
    (∀ w2, w.step verdict cmds = some w2 → w2.agents.length = w2.state.length) ∧
    ((∀ c ∈ cmds, c.isSpawn = true) →
      ∃ w2, w.step verdict cmds = some w2 ∧ w2.agents.length = w2.state.length) := by
  obtain ⟨p, hp, hpl⟩ := stepLoop_ok verdict (w.agents.length + 1) 0 w.agents w.state
    hinv (by omega)
  refine ⟨rfl, ?_, ⟨p, hp, hpl⟩, ?_, ?_⟩
  · show (w.agents ++ newAgents).length = (w.state ++ newAgents.map mkState).length
    rw [List.length_append, List.length_append, List.length_map, hinv]
  · intro w2 hw2
    rw [WorldM.step, hp] at hw2
    replace hw2 : (match runCommands cmds p with
      | none => none
      | some q => some (⟨q.1, q.2⟩ : WorldM AG ST)) = some w2 := hw2
    cases hrc : runCommands cmds p with
    | none =>
      rw [hrc] at hw2
      exact Option.noConfusion hw2
    | some q =>
      rw [hrc] at hw2
      have hql := (runCommands_inv cmds p hpl).1 q hrc
      have he : (⟨q.1, q.2⟩ : WorldM AG ST) = w2 := Option.some.inj hw2
      rw [← he]
      exact hql
  · intro hs
    obtain ⟨q, hq, hql⟩ := (runCommands_inv cmds p hpl).2 hs
    refine ⟨⟨q.1, q.2⟩, ?_, hql⟩
    rw [WorldM.step, hp]
    show (match runCommands cmds p with
      | none => none
      | some q2 => some (⟨q2.1, q2.2⟩ : WorldM AG ST)) = some ⟨q.1, q.2⟩
    rw [hq]

/-- Witness for C10: a 1-agent world with a spawn command steps to a
world whose two vectors are again the same length. -/
theorem C10_world_parallel_vectors_witness :
    (⟨[3], [4]⟩ : WorldM Nat Nat).agents.length =
      (⟨[3], [4]⟩ : WorldM Nat Nat).state.length ∧
    ∃ w2, (⟨[3], [4]⟩ : WorldM Nat Nat).step (fun _ _ => false)
      [CommandM.spawn 9 9] = some w2 ∧ w2.agents.length = w2.state.length := by
  refine ⟨rfl, ?_⟩
  exact (C10_world_parallel_vectors (⟨[3], [4]⟩ : WorldM Nat Nat) (fun _ _ => false)
    [CommandM.spawn 9 9] [5] (fun a => a) rfl).2.2.2.2 (by decide)

end EvoNN
